/-
  Verification of the docs-crawler repository (TypeScript) against its
  natural-language specification.

  The development shallowly embeds the pure logic of the source files:
    * src/qdrant.ts        -- semantic chunker (the textUtils part embedded in
                              that file), upsert point construction, search with
                              lexical fallback
    * src/embeddings.ts    -- synchronous embedding entry points (the named
                              module and the alternate, unnamed revision of the
                              module that implements the deterministic
                              hash-seeded fallback vector)
    * src/textUtils.ts     -- link filtering
    * src/crawler.ts       -- BFS frontier loop

  JavaScript strings are modelled as `List Char` (`JStr`); JS string indexing is
  by UTF-16 code unit, which agrees with one `Char` per unit for the inputs
  considered here.  JS regular-expression classes (`\s`, `\w`) are modelled on
  their ASCII portion; every concrete input in this file is ASCII.  Loops whose
  termination is in question are given an explicit fuel parameter and return
  `Option`; `none` means the fuel was exhausted.  External collaborators
  (the page renderer, the Qdrant client, the file system) are modelled as
  explicit oracle parameters, mirroring the try/catch structure of the source
  with `Option`/`Except`.
-/
import Mathlib

set_option maxRecDepth 8000

/-! ## JS string primitives -/

/-- JS strings as lists of UTF-16-ish code units. -/
abbrev JStr := List Char

/-- Lean string literal to `JStr`. -/
def jstr (s : String) : JStr := s.data

/-- ASCII portion of the JS regex class `\s` (space, tab, LF, CR, VT, FF).
JS additionally treats some Unicode space characters as `\s`; no input in this
development contains them. -/
def isJsWs (c : Char) : Bool :=
  c = ' ' || c = '\t' || c = '\n' || c = '\r' || c = Char.ofNat 11 || c = Char.ofNat 12

/-- JS `String.prototype.trim()` (ASCII whitespace). -/
def jsTrim (l : JStr) : JStr :=
  ((l.dropWhile isJsWs).reverse.dropWhile isJsWs).reverse

/-- JS `String.prototype.toLowerCase()` on ASCII. -/
def jsToLower (l : JStr) : JStr := l.map Char.toLower

/-- JS `str.split(sep)` for a one-character separator; `"".split` gives `[""]`. -/
def splitOnChar (sep : Char) : JStr → List JStr
  | [] => [[]]
  | c :: cs =>
    match splitOnChar sep cs with
    | [] => [[]]
    | h :: t => if c = sep then [] :: h :: t else (c :: h) :: t

/-! ## Chunker constants and data (src/qdrant.ts, textUtils section) -/

/-- `MAX_CHUNK_SIZE` (src/qdrant.ts line 315). -/
def MAX_CHUNK_SIZE : Nat := 4000

/-- `MIN_CHUNK_SIZE` (src/qdrant.ts line 317). -/
def MIN_CHUNK_SIZE : Nat := 250

/-- `CHUNK_OVERLAP` (src/qdrant.ts line 319). -/
def CHUNK_OVERLAP : Nat := 500

/-- `SectionNode` of the chunker (src/qdrant.ts lines 321-327).  The JS
`startPosition` field is recorded at construction and never read afterwards;
it is omitted here. -/
inductive SectionNode where
  | mk (title : JStr) (level : Nat) (content : JStr) (children : List SectionNode)

/-- Title accessor. -/
def SectionNode.title : SectionNode → JStr
  | .mk t _ _ _ => t

/-- Level accessor. -/
def SectionNode.level : SectionNode → Nat
  | .mk _ l _ _ => l

/-- Content accessor. -/
def SectionNode.content : SectionNode → JStr
  | .mk _ _ c _ => c

/-- Children accessor. -/
def SectionNode.children : SectionNode → List SectionNode
  | .mk _ _ _ ch => ch

/-- The JS regex `^(#{1,6})\s+(.+)$` applied to one line (src/qdrant.ts line
374).  Returns the captured level (count of leading `#`, greedy, at most 6) and
the trimmed title.  The regex matches iff there are 1-6 leading `#`, the next
character is whitespace and at least one further character follows (`\s+` is
greedy and backtracks to leave exactly one character for `.+` when the rest of
the line is all whitespace). -/
def headerMatch (line : JStr) : Option (Nat × JStr) :=
  let h := (line.takeWhile (fun c => c = '#')).length
  if 1 ≤ h ∧ h ≤ 6 then
    match line.drop h with
    | [] => none
    | c :: cs =>
      if isJsWs c ∧ cs ≠ [] then
        let rest := c :: cs
        let run := rest.takeWhile isJsWs
        let titleRaw :=
          if run.length = rest.length then rest.drop (rest.length - 1)
          else rest.drop run.length
        some (h, jsTrim titleRaw)
      else none
  else none

mutual

/-- `findDeepestSectionWithLevelLessThan` (src/qdrant.ts lines 429-455),
returning the path (list of child indices) to the node the JS function would
return, instead of the node itself, so the caller can attach a child there.
`none` corresponds to the JS `null`. -/
def findDeepestPath : SectionNode → Nat → Option (List Nat)
  | .mk _ lvl _ children, target =>
    if lvl < target then
      match fdpScan children 0 target with
      | some p => some p
      | none => some []
    else none

/-- The JS loop over children from the last index down to 0, returning the
first non-null recursive result (scanning later children first). -/
def fdpScan : List SectionNode → Nat → Nat → Option (List Nat)
  | [], _, _ => none
  | c :: rest, i, target =>
    match fdpScan rest (i + 1) target with
    | some p => some p
    | none =>
      match findDeepestPath c target with
      | some p => some (i :: p)
      | none => none

end

/-- Node lookup along a child-index path. -/
def nodeAt : SectionNode → List Nat → Option SectionNode
  | s, [] => some s
  | .mk _ _ _ ch, i :: rest =>
    match ch.get? i with
    | some c => nodeAt c rest
    | none => none

/-- Append a child to the node at `path` (the JS `parent.children.push`). -/
def appendChildAt : SectionNode → List Nat → SectionNode → SectionNode
  | .mk t l c ch, [], nc => .mk t l c (ch ++ [nc])
  | .mk t l c ch, i :: rest, nc =>
    .mk t l c
      (ch.take i ++
        (match ch.get? i with
         | some n => [appendChildAt n rest nc]
         | none => []) ++
        ch.drop (i + 1))

/-- Append text to the content of the node at `path`
(the JS `currentSection.content += ...`). -/
def appendContentAt : SectionNode → List Nat → JStr → SectionNode
  | .mk t l c ch, [], txt => .mk t l (c ++ txt) ch
  | .mk t l c ch, i :: rest, txt =>
    .mk t l c
      (ch.take i ++
        (match ch.get? i with
         | some n => [appendContentAt n rest txt]
         | none => []) ++
        ch.drop (i + 1))

/-- Number of children of the node at `path`. -/
def childCountAt (s : SectionNode) (path : List Nat) : Nat :=
  match nodeAt s path with
  | some n => n.children.length
  | none => 0

/-- State of `parseDocumentStructure`'s line loop: the tree built so far, the
path of the JS `currentSection` pointer, and `currentContent`. -/
structure ParseState where
  root : SectionNode
  curPath : List Nat
  curContent : JStr

/-- One iteration of the line loop of `parseDocumentStructure`
(src/qdrant.ts lines 370-416). -/
def parseLine (st : ParseState) (line : JStr) : ParseState :=
  match headerMatch line with
  | none => { st with curContent := st.curContent ++ line ++ ['\n'] }
  | some (lvl, title) =>
    -- commit accumulated content; in JS `currentContent` is reset only when
    -- its trim is non-empty
    let st1 :=
      if jsTrim st.curContent ≠ [] then
        { st with
          root := appendContentAt st.root st.curPath (jsTrim st.curContent),
          curContent := [] }
      else st
    -- parent search: the JS loop scans root.children from the last index and
    -- breaks on the first non-null `findDeepestSectionWithLevelLessThan`
    -- result (the extra `potentialParent.level < level` test in the JS is
    -- always true when the result is non-null); default parent is the root
    let ppath :=
      match fdpScan st1.root.children 0 lvl with
      | some p => p
      | none => []
    let idx := childCountAt st1.root ppath
    { root := appendChildAt st1.root ppath (SectionNode.mk title lvl [] []),
      curPath := ppath ++ [idx],
      curContent := st1.curContent }

/-- `parseDocumentStructure` (src/qdrant.ts lines 355-424). -/
def parseDocumentStructure (markdown : JStr) : SectionNode :=
  let lines := splitOnChar '\n' markdown
  let stF := lines.foldl parseLine
    ⟨SectionNode.mk (jstr "Document Root") 0 [] [], [], []⟩
  if jsTrim stF.curContent ≠ [] then
    appendContentAt stF.root stF.curPath (jsTrim stF.curContent)
  else stF.root

/-- Suffix after the last `'\n'` of a list (the whole list if it has none). -/
def afterLastNl : JStr → JStr
  | [] => []
  | c :: cs =>
    if cs.contains '\n' then afterLastNl cs
    else if c = '\n' then cs else c :: cs

/-- Scanner equivalent to repeatedly matching the JS regex `/\n\s*\n/` used by
`splitIntoParagraphs` (src/qdrant.ts line 582): a maximal whitespace run
containing at least two newlines acts as one separator reaching from its first
to its last newline; run characters before the first newline stay with the
preceding block and characters after the last newline start the next block.
`cur` is the block being accumulated and `pend` the pending whitespace run. -/
def splitBlocksAux : JStr → JStr → JStr → List JStr
  | [], cur, pend =>
    if 2 ≤ pend.count '\n' then
      [cur ++ pend.takeWhile (fun c => c ≠ '\n'), afterLastNl pend]
    else [cur ++ pend]
  | c :: rest, cur, pend =>
    if isJsWs c then splitBlocksAux rest cur (pend ++ [c])
    else if 2 ≤ pend.count '\n' then
      (cur ++ pend.takeWhile (fun c => c ≠ '\n')) ::
        splitBlocksAux rest (afterLastNl pend ++ [c]) []
    else splitBlocksAux rest (cur ++ pend ++ [c]) []

/-- `text.split(/\n\s*\n/)`. -/
def splitBlocks (l : JStr) : List JStr := splitBlocksAux l [] []

/-- `splitIntoParagraphs` (src/qdrant.ts lines 580-585): split on blank-ish
lines, trim each block, drop empty blocks. -/
def splitIntoParagraphs (text : JStr) : List JStr :=
  ((splitBlocks text).map jsTrim).filter (fun p => p ≠ [])

/-- A produced chunk: its text and the `section` breadcrumb stored in its
metadata (`baseMetadata` is an opaque record spread into every chunk and is not
modelled). -/
structure Chunk where
  text : JStr
  sectionPath : JStr
deriving DecidableEq

/-- The inner accumulation loop of `addContentToChunks`
(src/qdrant.ts lines 537-545): starting from the given buffer, keep appending
paragraphs while `buffer.length + next.length + 1 <= MAX_CHUNK_SIZE`; a
two-character `"\n\n"` separator is inserted when the buffer is non-empty.
Returns the remaining paragraphs and the final buffer. -/
def consume : List JStr → JStr → List JStr × JStr
  | [], cur => ([], cur)
  | p :: ps, cur =>
    if cur.length + p.length + 1 ≤ MAX_CHUNK_SIZE then
      consume ps (if cur = [] then p else cur ++ jstr "\n\n" ++ p)
    else (p :: ps, cur)

/-- The outer `while` loop of `addContentToChunks`
(src/qdrant.ts lines 535-574), with fuel.  `idx` is
`currentParagraphIndex`; each iteration runs the inner accumulation from
`paras.drop idx` with an empty buffer, pushes the buffer as a chunk when it
reaches `MIN_CHUNK_SIZE`, stops when all paragraphs are consumed, and
otherwise backtracks by `min(floor(idx'/2), max(1, ceil(CHUNK_OVERLAP/100)))`
paragraphs.  `none` means the fuel ran out. -/
def chunkLoop (paras : List JStr) (sectionPath : JStr) :
    Nat → Nat → List Chunk → Option (List Chunk)
  | 0, _, _ => none
  | fuel + 1, idx, acc =>
    if idx < paras.length then
      let r := consume (paras.drop idx) []
      let idx2 := paras.length - r.1.length
      let acc2 :=
        if MIN_CHUNK_SIZE ≤ r.2.length then acc ++ [⟨r.2, sectionPath⟩] else acc
      if paras.length ≤ idx2 then some acc2
      else
        let btk := min (idx2 / 2) (max 1 ((CHUNK_OVERLAP + 100 - 1) / 100))
        chunkLoop paras sectionPath fuel (idx2 - btk) acc2
    else some acc

/-- `addContentToChunks` (src/qdrant.ts lines 511-575): content not exceeding
`MAX_CHUNK_SIZE` becomes a single chunk; larger content goes through the
paragraph loop.  Chunks are appended to `acc` (the JS mutated `chunks` array). -/
def addContentToChunksFuel (content sectionPath : JStr) (acc : List Chunk)
    (fuel : Nat) : Option (List Chunk) :=
  if content.length ≤ MAX_CHUNK_SIZE then
    some (acc ++ [⟨content, sectionPath⟩])
  else chunkLoop (splitIntoParagraphs content) sectionPath fuel 0 acc

mutual

/-- `processSection` (src/qdrant.ts lines 482-506): emit the section's own
content (with its heading line prepended) under its breadcrumb path, then
recurse into the children. -/
def processSectionF (fuel : Nat) :
    SectionNode → JStr → List Chunk → Option (List Chunk)
  | .mk title lvl content children, parentPath, acc =>
    let sectionPath :=
      if parentPath = [] then title else parentPath ++ jstr " > " ++ title
    let step1 :=
      if jsTrim content ≠ [] then
        addContentToChunksFuel
          (List.replicate lvl '#' ++ [' '] ++ title ++ jstr "\n\n" ++ content)
          sectionPath acc fuel
      else some acc
    match step1 with
    | none => none
    | some acc2 => processChildrenF fuel children sectionPath acc2

/-- The `for (const child of section.children)` recursion. -/
def processChildrenF (fuel : Nat) :
    List SectionNode → JStr → List Chunk → Option (List Chunk)
  | [], _, acc => some acc
  | c :: rest, path, acc =>
    match processSectionF fuel c path acc with
    | none => none
    | some acc2 => processChildrenF fuel rest path acc2

end

/-- `processStructureIntoChunks` (src/qdrant.ts lines 460-477): top-level
sections first, then any root-level content as an "Introduction" section. -/
def processStructureF (root : SectionNode) (fuel : Nat) : Option (List Chunk) :=
  match processChildrenF fuel root.children [] [] with
  | none => none
  | some acc =>
    if jsTrim root.content ≠ [] then
      addContentToChunksFuel root.content (jstr "Introduction") acc fuel
    else some acc

/-- `semanticChunking` (src/qdrant.ts lines 337-350), with fuel for the
paragraph loop. -/
def semanticChunkingFuel (markdown : JStr) (fuel : Nat) : Option (List Chunk) :=
  if markdown = [] ∨ jsTrim markdown = [] then some []
  else processStructureF (parseDocumentStructure markdown) fuel

/-! ## Embeddings (src/embeddings.ts and the unnamed alternate revision) -/

/-- `VECTOR_SIZE` (src/embeddings.ts line 11). -/
def VECTOR_SIZE : Nat := 384

/-- JS `ToInt32` wrap (the `hash & hash` and `<<` coercions). -/
def toInt32 (n : Int) : Int := (n + 2 ^ 31) % 2 ^ 32 - 2 ^ 31

/-- One step of `simpleHash` (unnamed embeddings revision, lines 86-94):
`hash = (hash << 5) - hash + charCode; hash = hash & hash`.  `<<` wraps its
result to 32-bit signed, as does the final `& hash`; the intermediate
subtraction/addition are exact float arithmetic. -/
def hashStep (h : Int) (c : Char) : Int :=
  toInt32 (toInt32 (h * 32) - h + (c.toNat : Int))

/-- `simpleHash` (unnamed embeddings revision): the JS
`hash.toString()`/`parseInt` round trip is the identity on integers and is not
modelled separately. -/
def simpleHash (text : JStr) : Int := text.foldl hashStep 0

/-- JS `%` (remainder with the sign of the dividend), for a positive modulus. -/
def jsRem (a b : Int) : Int := if 0 ≤ a then a % b else -((-a) % b)

/-- The linear congruential step `value = (value * 9301 + 49297) % 233280`. -/
def lcgNext (v : Int) : Int := jsRem (v * 9301 + 49297) 233280

/-- The successive LCG values used for the vector components. -/
def lcgVals : Nat → Int → List Int
  | 0, _ => []
  | n + 1, v =>
    let v2 := lcgNext v
    v2 :: lcgVals n v2

/-- `generateDeterministicVector` before its final normalization (unnamed
embeddings revision, lines 100-121): component `i` is
`value_i / 233280 * 2 - 1` over the LCG stream seeded with `simpleHash text`.
The JS function finally divides every component by the vector's magnitude;
that scalar is a function of this raw vector, so the normalization is treated
in the theorems (over `ℝ`) rather than in this executable definition. -/
def gdvRaw (text : JStr) : List ℚ :=
  (lcgVals VECTOR_SIZE (simpleHash text)).map
    (fun v : Int => (v : ℚ) / 233280 * 2 - 1)

/-- Sum of squares of a rational vector. -/
def sumSq (l : List ℚ) : ℚ := (l.map (fun x => x * x)).sum

/-- Lookup in the embedding cache (`Map.get`). -/
def cacheLookup (cache : List (JStr × List ℚ)) (k : JStr) : Option (List ℚ) :=
  match cache with
  | [] => none
  | (k2, v) :: rest => if k2 = k then some v else cacheLookup rest k

/-- `embedTextSync` of the unnamed embeddings revision (lines 127-156): look
up the cache under the first-100-character key, otherwise compute the
deterministic vector and cache it.  The background `embedText(...)`
upgrade that may later replace the entry is asynchronous and not part of the
synchronous return value modelled here. -/
def embedTextSyncAlt (text : JStr) (cache : List (JStr × List ℚ)) :
    List ℚ × List (JStr × List ℚ) :=
  let key := text.take 100
  match cacheLookup cache key with
  | some v => (v, cache)
  | none => (gdvRaw text, (key, gdvRaw text) :: cache)

/-! ## Upsert point construction (src/qdrant.ts lines 72-172) -/

/-- One element of a page's stored chunk array (`PageDataItem`). -/
structure PageDataItem where
  chunk : JStr
  pageUrl : JStr
  linksFound : List JStr
deriving DecidableEq

/-- Payload of an upserted point. -/
structure PSPayload where
  pageUrl : JStr
  chunk : JStr
  fileSlug : JStr
deriving DecidableEq

/-- `PointStruct` (src/qdrant.ts lines 9-17); vectors are the rational model
vectors of the embedding being used. -/
structure PointStruct where
  id : Nat
  vector : List ℚ
  payload : PSPayload
deriving DecidableEq

/-- `BATCH_SIZE` (src/qdrant.ts line 81). -/
def BATCH_SIZE : Nat := 50

/-- The inner point-building loop of `upsertChunksToQdrant`
(src/qdrant.ts lines 101-128): point `i` of a batch gets
`id = batchStart + i`.  The embedding function is passed in (the source
imports `embedTextSync`); it is total here, so the JS catch-and-skip around a
throwing embedder never fires. -/
def pointsForBatch (embed : JStr → List ℚ) (fileSlug : JStr) (batchStart : Nat) :
    List PageDataItem → Nat → List PointStruct
  | [], _ => []
  | it :: rest, i =>
    ⟨batchStart + i, embed it.chunk, ⟨it.pageUrl, it.chunk, fileSlug⟩⟩ ::
      pointsForBatch embed fileSlug batchStart rest (i + 1)

/-- The batching loop (`for batchStart += BATCH_SIZE`), with a structural
bound; `pageData.length` steps always suffice since every round consumes at
least one item. -/
def upsertBatchesAux (embed : JStr → List ℚ) (fileSlug : JStr) :
    Nat → List PageDataItem → Nat → List (List PointStruct)
  | 0, _, _ => []
  | _, [], _ => []
  | bound + 1, l, batchStart =>
    pointsForBatch embed fileSlug batchStart (l.take BATCH_SIZE) 0 ::
      upsertBatchesAux embed fileSlug bound (l.drop BATCH_SIZE)
        (batchStart + BATCH_SIZE)

/-- All points built for one page by `upsertChunksToQdrant`, in order. -/
def upsertPointsAll (embed : JStr → List ℚ) (fileSlug : JStr)
    (pageData : List PageDataItem) : List PointStruct :=
  (upsertBatchesAux embed fileSlug pageData.length pageData 0).flatten

/-! ## Search (src/qdrant.ts lines 178-306) -/

/-- A search result row `{chunk, pageUrl, score}`. -/
structure SearchHit where
  chunk : JStr
  pageUrl : JStr
  score : ℚ
deriving DecidableEq

/-- Payload of a vector-search result (`res.payload`); `none` models a missing
payload. -/
structure SPPayload where
  pageUrl : JStr
  chunk : JStr
deriving DecidableEq

/-- One vector-search result. -/
structure ScoredPoint where
  payload : Option SPPayload
  score : ℚ
deriving DecidableEq

/-- Decidable equality for `Except` payloads. -/
instance exceptDecEq {α β : Type} [DecidableEq α] [DecidableEq β] :
    DecidableEq (Except α β) := fun x y =>
  match x, y with
  | .error a, .error b => decidable_of_iff (a = b) (by simp)
  | .ok a, .ok b => decidable_of_iff (a = b) (by simp)
  | .error _, .ok _ => isFalse (by simp)
  | .ok _, .error _ => isFalse (by simp)

/-- A JSON file of the local mirror: its name and its parse outcome (`.error`
models `readFileSync`/`JSON.parse` throwing for that file). -/
structure MirrorFile where
  name : JStr
  parsed : Except Unit (List PageDataItem)
deriving DecidableEq

/-- The mapping of a vector result to a returned row (src/qdrant.ts lines
214-218), with the `?? "Chunk data missing"` / `?? "URL missing"` defaults. -/
def toHit (r : ScoredPoint) : SearchHit :=
  ⟨(r.payload.map SPPayload.chunk).getD (jstr "Chunk data missing"),
   (r.payload.map SPPayload.pageUrl).getD (jstr "URL missing"),
   r.score⟩

/-- `query.split(/\s+/)` scanner; it may produce empty fragments (for leading
or repeated whitespace), exactly the ones the source filters away. -/
def splitWsAux : JStr → JStr → List JStr
  | [], cur => [cur]
  | c :: rest, cur =>
    if isJsWs c then cur :: splitWsAux rest []
    else splitWsAux rest (cur ++ [c])

/-- `query.toLowerCase().split(/\s+/).filter(term => term.length > 0)`
(src/qdrant.ts lines 251-254). -/
def queryTerms (query : JStr) : List JStr :=
  (splitWsAux (jsToLower query) []).filter (fun t => t ≠ [])

/-- Counting loop for one term: the escaped term used with a global regex
counts leftmost non-overlapping literal occurrences, advancing past each match
(`bound` is structural fuel; `l.length + 1` always suffices for a non-empty
pattern). -/
def countOccsAux (pat : JStr) : Nat → JStr → Nat
  | 0, _ => 0
  | bound + 1, l =>
    if pat ≠ [] ∧ pat.isPrefixOf l then
      1 + countOccsAux pat bound (l.drop pat.length)
    else
      match l with
      | [] => 0
      | _ :: t => countOccsAux pat bound t

/-- `chunkLower.match(new RegExp(escapedTerm, "gi")).length` for a non-empty
term against an already-lowercased chunk (src/qdrant.ts lines 272-281). -/
def countOccs (pat l : JStr) : Nat := countOccsAux pat (l.length + 1) l

/-- The rows one stored item contributes to the fallback `matches` array
(src/qdrant.ts lines 267-291): total term count, keep only if positive, score
`count / chunk.length * 100` (with the `chunk.length > 0` guard). -/
def itemHits (terms : List JStr) (it : PageDataItem) : List SearchHit :=
  let cl := jsToLower it.chunk
  let cnt := (terms.map (fun t => countOccs t cl)).sum
  if 0 < cnt then
    [⟨it.chunk, it.pageUrl,
      if 0 < it.chunk.length then (cnt : ℚ) / (it.chunk.length : ℚ) * 100
      else 0⟩]
  else []

/-- The whole fallback scan over the mirror files: keep `.json` files, skip
files whose read/parse throws, accumulate the rows of every item. -/
def fallbackMatches (files : List MirrorFile) (query : JStr) : List SearchHit :=
  (files.filter (fun f => (jstr ".json").isSuffixOf f.name)).foldl
    (fun acc f =>
      match f.parsed with
      | .error _ => acc
      | .ok items => acc ++ (items.map (itemHits (queryTerms query))).flatten) []

/-- Stable insertion for the descending sort. -/
def insertScoreDesc (x : SearchHit) : List SearchHit → List SearchHit
  | [] => [x]
  | y :: ys => if y.score ≤ x.score then x :: y :: ys else y :: insertScoreDesc x ys

/-- `matches.sort((a, b) => b.score - a.score)`: the (stable) JS sort in
descending score order. -/
def sortScoreDesc : List SearchHit → List SearchHit
  | [] => []
  | x :: xs => insertScoreDesc x (sortScoreDesc xs)

/-- `matches.sort(...).slice(0, topK)` over parsed files. -/
def fallbackScan (files : List MirrorFile) (query : JStr) (topK : Nat) :
    List SearchHit :=
  (sortScoreDesc (fallbackMatches files query)).take topK

/-- The fallback block of `searchInQdrant` (src/qdrant.ts lines 239-305):
missing mirror directory gives `[]`; a throw anywhere in the fallback
(modelled as the directory listing erroring) is caught and gives `[]`. -/
def fallbackRun (folder : Option (Except Unit (List MirrorFile)))
    (query : JStr) (topK : Nat) : List SearchHit :=
  match folder with
  | none => []
  | some (.error _) => []
  | some (.ok files) => fallbackScan files query topK

/-- `searchInQdrant` (src/qdrant.ts lines 178-306).  `vres` is the outcome of
the vector-search attempt (`.error` models `qdrantClient.search` throwing);
non-empty vector results are returned directly, otherwise the lexical
fallback runs over the mirror-directory state `folder`. -/
def searchInQdrantModel (vres : Except Unit (List ScoredPoint))
    (folder : Option (Except Unit (List MirrorFile)))
    (query : JStr) (topK : Nat) : List SearchHit :=
  match vres with
  | .ok rs => if 0 < rs.length then rs.map toHit else fallbackRun folder query topK
  | .error _ => fallbackRun folder query topK

/-- The claim's scoring formula, written from the spec's words: sum over
lowercase whitespace-delimited query terms of the term's occurrence count in
the chunk. -/
def specTermScore (query chunk : JStr) : Nat :=
  ((queryTerms query).map (fun t => countOccs t (jsToLower chunk))).sum

/-- The claim's score: occurrence total divided by the chunk's length,
times 100. -/
def specLexScore (query chunk : JStr) : ℚ :=
  (specTermScore query chunk : ℚ) / (chunk.length : ℚ) * 100

/-- The retained rows according to the spec's words: one row per stored chunk
with a positive occurrence total, carrying the spec's score. -/
def specItemHits (query : JStr) (it : PageDataItem) : List SearchHit :=
  if 0 < specTermScore query it.chunk then
    [⟨it.chunk, it.pageUrl, specLexScore query it.chunk⟩]
  else []

/-- All spec-side rows over the mirror files. -/
def specMatchesList (files : List MirrorFile) (query : JStr) : List SearchHit :=
  (files.filter (fun f => (jstr ".json").isSuffixOf f.name)).foldl
    (fun acc f =>
      match f.parsed with
      | .error _ => acc
      | .ok items => acc ++ (items.map (specItemHits query)).flatten) []

/-! ## URL parsing and link filtering (src/textUtils.ts lines 190-281) -/

/-- Hostname and pathname of a parsed URL. -/
structure UrlParts where
  hostname : JStr
  pathname : JStr
deriving DecidableEq

/-- `new URL(s)` for absolute http/https URLs: lowercased hostname (up to any
port), pathname up to any query/fragment, defaulting to "/".  Anything without
an http(s) scheme or with an empty host models the constructor throwing
(`none`); such links are dropped by the filter's catch. -/
def parseUrl (s : JStr) : Option UrlParts :=
  let body :=
    if (jstr "https://").isPrefixOf s then some (s.drop 8)
    else if (jstr "http://").isPrefixOf s then some (s.drop 7)
    else none
  match body with
  | none => none
  | some b =>
    let hostPort := b.takeWhile (fun c => c ≠ '/' ∧ c ≠ '?' ∧ c ≠ '#')
    if hostPort = [] then none
    else
      let host := (hostPort.takeWhile (fun c => c ≠ ':')).map Char.toLower
      let rest := b.drop hostPort.length
      let path := rest.takeWhile (fun c => c ≠ '?' ∧ c ≠ '#')
      some ⟨host, if path = [] then ['/'] else path⟩

/-- JS `String.prototype.includes`: `pat` occurs as a contiguous substring. -/
def containsSub (pat : JStr) : JStr → Bool
  | [] => pat.isPrefixOf []
  | c :: rest => pat.isPrefixOf (c :: rest) || containsSub pat rest

/-- `url.pathname.includes("/docs/") || ... ("/guide/") || ... ("/api/")`
(src/textUtils.ts lines 260-263). -/
def hasDocSegment (p : JStr) : Bool :=
  containsSub (jstr "/docs/") p || containsSub (jstr "/guide/") p ||
    containsSub (jstr "/api/") p

/-- `baseUrl.endsWith("/") ? baseUrl : baseUrl + "/"`
(src/textUtils.ts line 197). -/
def normalizeBaseUrl (baseUrl : JStr) : JStr :=
  if baseUrl.getLast? = some '/' then baseUrl else baseUrl ++ ['/']

/-- The filter predicate of `extractLinksFromPage` (src/textUtils.ts lines
247-271): same hostname, and the link's pathname starts with the base's
pathname or contains a documentation-like segment; a URL-parse throw rejects
the link. -/
def linkKept (nbase href : JStr) : Bool :=
  match parseUrl href, parseUrl nbase with
  | some u, some b =>
    if u.hostname ≠ b.hostname then false
    else b.pathname.isPrefixOf u.pathname || hasDocSegment u.pathname
  | _, _ => false

/-- `Array.from(new Set(xs))`: duplicates removed keeping first occurrences. -/
def dedupFirst (seen : List JStr) : List JStr → List JStr
  | [] => []
  | x :: xs =>
    if x ∈ seen then dedupFirst seen xs else x :: dedupFirst (x :: seen) xs

/-- The pure part of `extractLinksFromPage` (src/textUtils.ts lines 246-281):
filter the collected hrefs, then dedupe.  The browser-side anchor collection
and relative-URL resolution happen inside `page.evaluate` and are the
renderer's job; `links` is its output. -/
def extractLinksModel (links : List JStr) (baseUrl : JStr) : List JStr :=
  dedupFirst [] (links.filter (fun href => linkKept (normalizeBaseUrl baseUrl) href))

/-- The retention predicate exactly as the claim words it: hostname matches
and the link's path is a prefix of the base URL's path, or the link's path
contains a documentation-like segment. -/
def specRetains (baseUrl href : JStr) : Bool :=
  match parseUrl href, parseUrl (normalizeBaseUrl baseUrl) with
  | some u, some b =>
    u.hostname = b.hostname &&
      (u.pathname.isPrefixOf b.pathname || hasDocSegment u.pathname)
  | _, _ => false

/-! ## Crawler (src/crawler.ts lines 33-305) -/

/-- Outcome of rendering one URL: the final URL after redirects, the HTTP
status, whether markdown extraction succeeds and its result, and whether link
extraction succeeds and the raw links found.  `none` for the whole record
models `page.goto` throwing. -/
structure PageResult where
  finalUrl : JStr
  status : Nat
  extractOk : Bool
  markdown : JStr
  linksOk : Bool
  links : List JStr
deriving DecidableEq

/-- One page written to the mirror and upserted: the collection (the site
slug), the file slug, and the chunk array. -/
structure StoreEvent where
  collection : JStr
  fileSlug : JStr
  pageData : List PageDataItem
deriving DecidableEq

/-- Crawl state: the frontier, the visited set, the chronological list of
URLs marked visited (each the identity under which a page proceeds), every
dequeued task, and every store/upsert event. -/
structure CrawlState where
  toVisit : List (JStr × Nat)
  visited : List JStr
  visitEvents : List JStr
  dequeued : List (JStr × Nat)
  stores : List StoreEvent
deriving DecidableEq

/-- The first position where `/https?:\/\//` matches (greedy on the `s?`). -/
def matchScheme (l : JStr) : Option Nat :=
  if (jstr "https://").isPrefixOf l then some 8
  else if (jstr "http://").isPrefixOf l then some 7
  else none

/-- `.replace(/https?:\/\//, "")`: remove the leftmost scheme occurrence. -/
def stripSchemeOnce : JStr → JStr
  | [] => []
  | c :: rest =>
    match matchScheme (c :: rest) with
    | some n => (c :: rest).drop n
    | none => c :: stripSchemeOnce rest

/-- The JS regex class `\w` (ASCII word characters; `\d` is a subset). -/
def isWordChar (c : Char) : Bool :=
  ('a' ≤ c && c ≤ 'z') || ('A' ≤ c && c ≤ 'Z') || ('0' ≤ c && c ≤ '9') || c = '_'

/-- `.replace(/[^\w\d]+/g, "_")`: each maximal run of non-word characters
becomes a single underscore (`inRun` tracks being inside such a run). -/
def collapseNonWord (inRun : Bool) : JStr → JStr
  | [] => []
  | c :: rest =>
    if isWordChar c then c :: collapseNonWord false rest
    else if inRun then collapseNonWord true rest
    else '_' :: collapseNonWord true rest

/-- The slug of a URL (src/crawler.ts lines 38-41 and 260-263):
strip the scheme, collapse non-word runs to `_`, lowercase. -/
def urlSlug (u : JStr) : JStr :=
  (collapseNonWord false (stripSchemeOnce u)).map Char.toLower

/-- URL normalization of the crawl loop (src/crawler.ts lines 118-121 and
216-219): strip the fragment, then strip one trailing slash unless the result
is the base URL itself. -/
def normalizeUrl (baseUrl u : JStr) : JStr :=
  let n0 := u.takeWhile (fun c => c ≠ '#')
  if n0 ≠ baseUrl ∧ n0.getLast? = some '/' then n0.dropLast else n0

/-- The enqueue loop over the filtered links (src/crawler.ts lines 215-228):
normalize each link and push it at `depth + 1` if it is not visited, starts
with the base URL, and is not already queued. -/
def enqueueLinks (baseUrl : JStr) (depth : Nat) (links : List JStr)
    (st : CrawlState) : CrawlState :=
  links.foldl
    (fun s link =>
      let nl := normalizeUrl baseUrl link
      if nl ∉ s.visited ∧ baseUrl.isPrefixOf nl then
        if ¬ s.toVisit.any (fun t => t.1 = nl) then
          { s with toVisit := s.toVisit ++ [(nl, depth + 1)] }
        else s
      else s) st

/-- The tail of one crawl iteration after redirect reconciliation
(src/crawler.ts lines 165-292), for a page rendered as `r` whose processing
identity is `ident`: drop on HTTP status >= 400 (a null response without a
thrown `goto` is modelled as such a status); drop if markdown extraction
throws; for depth-1 tasks extract and enqueue links (a link-extraction throw
yields no links but processing continues); finally store and upsert a
single-chunk page unless the markdown trims to empty.  Local file writes are
modelled as always succeeding. -/
def storePhase (baseUrl : JStr) (depth : Nat) (r : PageResult) (ident : JStr)
    (st : CrawlState) : CrawlState :=
  if 400 ≤ r.status then st
  else if r.extractOk = false then st
  else
    let linksFound :=
      if depth = 1 then
        (if r.linksOk then extractLinksModel r.links baseUrl else [])
      else []
    let st2 := if depth = 1 then enqueueLinks baseUrl depth linksFound st else st
    if jsTrim r.markdown = [] then st2
    else
      { st2 with
        stores := st2.stores ++
          [⟨urlSlug baseUrl, urlSlug ident,
            [⟨r.markdown, ident, linksFound⟩]⟩] }

/-- One iteration of the `while (toVisit.length > 0)` loop of `bfsCrawl`
(src/crawler.ts lines 116-293) on the dequeued `task`, with `rest` the
remaining queue: normalize; drop if visited, else mark visited; render (a
`goto` throw ends the iteration); reconcile redirects against the visited
set (in the source the identity switch and the visited-marking are guarded by
the same `finalUrl !== normalizedUrl` test; here that test is taken once and
`storePhase` receives the identity and the marked state accordingly); then
run the `storePhase` tail. -/
def processTask (render : JStr → Option PageResult) (baseUrl : JStr)
    (task : JStr × Nat) (rest : List (JStr × Nat)) (st0 : CrawlState) :
    CrawlState :=
  let depth := task.2
  let nurl := normalizeUrl baseUrl task.1
  let st := { st0 with toVisit := rest, dequeued := st0.dequeued ++ [task] }
  if nurl ∈ st.visited then st
  else
    let st :=
      { st with visited := nurl :: st.visited,
                visitEvents := st.visitEvents ++ [nurl] }
    match render nurl with
    | none => st
    | some r =>
      if r.finalUrl ≠ nurl ∧ r.finalUrl ∈ st.visited then st
      else if r.finalUrl ≠ nurl then
        storePhase baseUrl depth r r.finalUrl
          { st with visited := r.finalUrl :: st.visited,
                    visitEvents := st.visitEvents ++ [r.finalUrl] }
      else storePhase baseUrl depth r nurl st

/-- The crawl loop with fuel: process tasks until the frontier is empty.
`none` means the fuel ran out with tasks still pending. -/
def crawlRun (render : JStr → Option PageResult) (baseUrl : JStr) :
    Nat → CrawlState → Option CrawlState
  | 0, st =>
    match st.toVisit with
    | [] => some st
    | _ :: _ => none
  | fuel + 1, st =>
    match st.toVisit with
    | [] => some st
    | t :: rest => crawlRun render baseUrl fuel (processTask render baseUrl t rest st)

/-- The initial crawl state: the seed at depth 1 (src/crawler.ts lines 97-100). -/
def initState (baseUrl : JStr) : CrawlState :=
  ⟨[(baseUrl, 1)], [], [], [], []⟩

/-! ## Concrete data used by counterexamples and witnesses -/

/-- A headerless document that is a single 4001-character paragraph. -/
def longPara : JStr := List.replicate 4001 'a'

/-- A headerless three-paragraph document of total length 4303
(paragraph lengths 1999, 2000 and 300). -/
def doc4303 : JStr :=
  List.replicate 1999 'a' ++ jstr "\n\n" ++ List.replicate 2000 'a' ++
    jstr "\n\n" ++ List.replicate 300 'a'

/-- Demo site used by crawl witnesses. -/
def demoBase : JStr := jstr "http://a"

/-- Demo render oracle: the seed links to one in-scope page (twice, plus an
off-host link); the depth-2 page renders with empty markdown. -/
def demoRender (u : JStr) : Option PageResult :=
  if u = jstr "http://a" then
    some ⟨jstr "http://a", 200, true, jstr "hello world", true,
      [jstr "http://a/b", jstr "http://a/b", jstr "http://x/y"]⟩
  else if u = jstr "http://a/b" then
    some ⟨jstr "http://a/b", 200, true, [], true, []⟩
  else none

/-- Final state of the demo crawl. -/
def demoFinal : CrawlState :=
  match crawlRun demoRender demoBase 4 (initState demoBase) with
  | some st => st
  | none => ⟨[], [], [], [], []⟩

/-- The store event produced by the demo crawl. -/
def demoStore : StoreEvent :=
  match demoFinal.stores with
  | e :: _ => e
  | [] => ⟨[], [], []⟩

/-! ## Theorems -/

/-! ### Upsert point ids (claim C3) -/

theorem pointsForBatch_ids (embed : JStr → List ℚ) (fileSlug : JStr)
    (batchStart : Nat) :
    ∀ (items : List PageDataItem) (i : Nat),
      (pointsForBatch embed fileSlug batchStart items i).map PointStruct.id =
        List.range' (batchStart + i) items.length := by
  intro items
  induction items with
  | nil => intro i; simp [pointsForBatch]
  | cons it rest ih =>
    intro i
    rw [List.length_cons, List.range'_succ]
    simp only [pointsForBatch, List.map_cons, ih (i + 1)]
    rw [Nat.add_assoc]

theorem pointsForBatch_chunks (embed : JStr → List ℚ) (fileSlug : JStr)
    (batchStart : Nat) :
    ∀ (items : List PageDataItem) (i : Nat),
      (pointsForBatch embed fileSlug batchStart items i).map
          (fun p => p.payload.chunk) = items.map PageDataItem.chunk := by
  intro items
  induction items with
  | nil => intro i; simp [pointsForBatch]
  | cons it rest ih => intro i; simp [pointsForBatch, ih (i + 1)]

theorem upsertBatchesAux_ids (embed : JStr → List ℚ) (fileSlug : JStr) :
    ∀ (bound : Nat) (l : List PageDataItem) (batchStart : Nat),
      l.length ≤ bound →
      ((upsertBatchesAux embed fileSlug bound l batchStart).flatten).map
          PointStruct.id = List.range' batchStart l.length := by
  intro bound
  induction bound with
  | zero =>
    intro l batchStart h
    rw [Nat.le_zero, List.length_eq_zero] at h
    subst h
    simp [upsertBatchesAux]
  | succ b ih =>
    intro l batchStart h
    match l with
    | [] => simp [upsertBatchesAux]
    | it :: rest =>
      have hB : BATCH_SIZE = 50 := rfl
      rw [upsertBatchesAux]
      case x_3 => simp
      rw [List.flatten_cons, List.map_append,
        pointsForBatch_ids embed fileSlug batchStart _ 0,
        ih ((it :: rest).drop BATCH_SIZE) (batchStart + BATCH_SIZE) ?hlen]
      case hlen =>
        have := List.length_drop BATCH_SIZE (it :: rest)
        omega
      rw [Nat.add_zero, List.length_take, List.length_drop]
      by_cases hc : (it :: rest).length ≤ BATCH_SIZE
      · rw [Nat.min_eq_right hc, Nat.sub_eq_zero_of_le hc]
        simp
      · rw [Nat.min_eq_left (le_of_not_le hc)]
        have hr := List.range'_append batchStart BATCH_SIZE
          ((it :: rest).length - BATCH_SIZE) 1
        rw [Nat.one_mul] at hr
        rw [hr]
        congr 1
        omega

theorem upsertBatchesAux_chunks (embed : JStr → List ℚ) (fileSlug : JStr) :
    ∀ (bound : Nat) (l : List PageDataItem) (batchStart : Nat),
      l.length ≤ bound →
      ((upsertBatchesAux embed fileSlug bound l batchStart).flatten).map
          (fun p => p.payload.chunk) = l.map PageDataItem.chunk := by
  intro bound
  induction bound with
  | zero =>
    intro l batchStart h
    rw [Nat.le_zero, List.length_eq_zero] at h
    subst h
    simp [upsertBatchesAux]
  | succ b ih =>
    intro l batchStart h
    match l with
    | [] => simp [upsertBatchesAux]
    | it :: rest =>
      have hB : BATCH_SIZE = 50 := rfl
      rw [upsertBatchesAux]
      case x_3 => simp
      rw [List.flatten_cons, List.map_append,
        pointsForBatch_chunks embed fileSlug batchStart _ 0,
        ih ((it :: rest).drop BATCH_SIZE) (batchStart + BATCH_SIZE) ?hlen]
      case hlen =>
        have := List.length_drop BATCH_SIZE (it :: rest)
        omega
      rw [← List.map_append, List.take_append_drop]

/-- Claim C3, amended: `upsertChunksToQdrant` assigns ids
`batchStart + i`, i.e. exactly the chunk's index inside the page's own
`pageData` array (`List.range pageData.length`): deterministic and unique
within one page, but carrying no contribution from the page itself. -/
theorem point_ids_are_chunk_indices :
    ∀ (embed : JStr → List ℚ) (fileSlug : JStr) (pageData : List PageDataItem),
      (upsertPointsAll embed fileSlug pageData).map PointStruct.id =
        List.range pageData.length := by
  intro embed fileSlug pageData
  rw [upsertPointsAll, upsertBatchesAux_ids embed fileSlug _ _ 0 le_rfl,
    List.range_eq_range']

/-- Claim C3, counterexample: two distinct pages, each with one chunk, both
get the id list `[0]`, so their points collide in the shared collection and
the later upsert overwrites the earlier page's point. -/
theorem point_id_collision_cex :
    (upsertPointsAll (fun _ => []) (jstr "page_one")
        [⟨jstr "c1", jstr "http://a/1", []⟩]).map PointStruct.id = [0] ∧
    (upsertPointsAll (fun _ => []) (jstr "page_two")
        [⟨jstr "c2", jstr "http://a/2", []⟩]).map PointStruct.id = [0] ∧
    jstr "http://a/1" ≠ jstr "http://a/2" := by
  refine ⟨by decide, by decide, by decide⟩

/-! ### Link filtering (claim C9) -/

theorem dedupFirst_mem :
    ∀ (l : List JStr) (seen : List JStr) (x : JStr),
      x ∈ dedupFirst seen l ↔ x ∈ l ∧ x ∉ seen := by
  intro l
  induction l with
  | nil => intro seen x; simp [dedupFirst]
  | cons y ys ih =>
    intro seen x
    by_cases hy : y ∈ seen
    · rw [dedupFirst, if_pos hy, ih]
      constructor
      · rintro ⟨hx, hs⟩
        exact ⟨List.mem_cons_of_mem _ hx, hs⟩
      · rintro ⟨hx, hs⟩
        rcases List.mem_cons.mp hx with rfl | hx
        · exact absurd hy hs
        · exact ⟨hx, hs⟩
    · rw [dedupFirst, if_neg hy]
      rw [List.mem_cons, ih]
      constructor
      · rintro (rfl | ⟨hx, hs⟩)
        · exact ⟨List.mem_cons_self _ _, hy⟩
        · refine ⟨List.mem_cons_of_mem _ hx, fun hc => hs (List.mem_cons_of_mem _ hc)⟩
      · rintro ⟨hx, hs⟩
        rcases List.mem_cons.mp hx with rfl | hx
        · exact Or.inl rfl
        · by_cases hxy : x = y
          · exact Or.inl hxy
          · exact Or.inr ⟨hx, fun hc => by
              rcases List.mem_cons.mp hc with h | h
              · exact hxy h
              · exact hs h⟩

theorem dedupFirst_nodup :
    ∀ (l : List JStr) (seen : List JStr), (dedupFirst seen l).Nodup := by
  intro l
  induction l with
  | nil => intro seen; simp [dedupFirst]
  | cons y ys ih =>
    intro seen
    by_cases hy : y ∈ seen
    · rw [dedupFirst, if_pos hy]; exact ih seen
    · rw [dedupFirst, if_neg hy]
      refine List.nodup_cons.mpr ⟨fun hc => ?_, ih (y :: seen)⟩
      exact ((dedupFirst_mem ys (y :: seen) y).mp hc).2 (List.mem_cons_self _ _)

/-- Claim C9, counterexample: with base URL `https://example.com/docs1/`, the
link `https://example.com/` satisfies the claim's retention condition (its
path `/` is a prefix of the base's path `/docs1/` and the hostnames agree),
yet the code retains nothing, because the code tests the converse
(`url.pathname.startsWith(baseUrlObj.pathname)`). -/
theorem link_filter_prefix_direction_cex :
    specRetains (jstr "https://example.com/docs1/") (jstr "https://example.com/") = true ∧
    extractLinksModel [jstr "https://example.com/"] (jstr "https://example.com/docs1/") = [] := by
  exact ⟨by decide, by decide⟩

/-! ### Embeddings (claim C8) -/

theorem lcgVals_length : ∀ (n : Nat) (v : Int), (lcgVals n v).length = n := by
  intro n
  induction n with
  | zero => intro v; simp [lcgVals]
  | succ m ih => intro v; simp [lcgVals, ih]

theorem sumSq_nonneg : ∀ l : List ℚ, 0 ≤ sumSq l := by
  intro l
  induction l with
  | nil => simp [sumSq]
  | cons a t ih =>
    rw [sumSq, List.map_cons, List.sum_cons]
    have := mul_self_nonneg a
    rw [sumSq] at ih
    linarith

theorem sumSq_pos_of_mem : ∀ (l : List ℚ) (x : ℚ), x ∈ l → x ≠ 0 → 0 < sumSq l := by
  intro l
  induction l with
  | nil => intro x hx; simp at hx
  | cons a t ih =>
    intro x hx hne
    have ht : (0 : ℚ) ≤ sumSq t := sumSq_nonneg t
    rw [sumSq, List.map_cons, List.sum_cons]
    rw [sumSq] at ht
    rcases List.mem_cons.mp hx with rfl | hx
    · have h1 : 0 < x * x := mul_self_pos.mpr hne
      linarith
    · have h2 : 0 < sumSq t := ih x hx hne
      have ha := mul_self_nonneg a
      rw [sumSq] at h2
      linarith

theorem sumSq_cast :
    ∀ l : List ℚ, ((sumSq l : ℚ) : ℝ) =
      (l.map (fun x : ℚ => (x : ℝ) * (x : ℝ))).sum := by
  intro l
  induction l with
  | nil => simp [sumSq]
  | cons a t ih =>
    rw [sumSq] at ih ⊢
    rw [List.map_cons, List.sum_cons, List.map_cons, List.sum_cons]
    push_cast at ih ⊢
    linarith

theorem sum_sq_div (c : ℝ) :
    ∀ l : List ℚ,
      ((l.map (fun x : ℚ => (x : ℝ) / c)).map (fun y : ℝ => y * y)).sum =
        (l.map (fun x : ℚ => (x : ℝ) * (x : ℝ))).sum / (c * c) := by
  intro l
  induction l with
  | nil => simp
  | cons a t ih =>
    rw [List.map_cons, List.map_cons, List.sum_cons, List.map_cons,
      List.sum_cons, ih, add_div, div_mul_div_comm]

theorem gdvRaw_length : ∀ t : JStr, (gdvRaw t).length = VECTOR_SIZE := by
  intro t
  rw [gdvRaw, List.length_map, lcgVals_length]

theorem rawComponent_ne_zero (v : Int) (hv : v ≠ 116640) :
    (v : ℚ) / 233280 * 2 - 1 ≠ 0 := by
  intro h
  apply hv
  have h2 : (v : ℚ) = 116640 := by
    field_simp at h
    linarith
  exact_mod_cast h2

theorem gdvRaw_sumSq_ne_zero : ∀ t : JStr, sumSq (gdvRaw t) ≠ 0 := by
  intro t
  have hsplit : gdvRaw t =
      ((lcgNext (simpleHash t) : ℚ) / 233280 * 2 - 1) ::
      ((lcgNext (lcgNext (simpleHash t)) : ℚ) / 233280 * 2 - 1) ::
      (lcgVals 382 (lcgNext (lcgNext (simpleHash t)))).map
        (fun v : Int => (v : ℚ) / 233280 * 2 - 1) := by
    rw [gdvRaw]
    rw [show VECTOR_SIZE = 382 + 1 + 1 from rfl]
    rw [lcgVals, lcgVals]
    simp
  by_cases h1 : lcgNext (simpleHash t) = 116640
  · have h165937 : lcgNext (lcgNext (simpleHash t)) = 165937 := by
      rw [h1]; decide
    have hne : ((lcgNext (lcgNext (simpleHash t)) : ℚ) / 233280 * 2 - 1) ≠ 0 := by
      apply rawComponent_ne_zero
      rw [h165937]; decide
    have hmem : ((lcgNext (lcgNext (simpleHash t)) : ℚ) / 233280 * 2 - 1) ∈ gdvRaw t := by
      rw [hsplit]
      exact List.mem_cons_of_mem _ (List.mem_cons_self _ _)
    exact ne_of_gt (sumSq_pos_of_mem _ _ hmem hne)
  · have hne : ((lcgNext (simpleHash t) : ℚ) / 233280 * 2 - 1) ≠ 0 :=
      rawComponent_ne_zero _ h1
    have hmem : ((lcgNext (simpleHash t) : ℚ) / 233280 * 2 - 1) ∈ gdvRaw t := by
      rw [hsplit]
      exact List.mem_cons_self _ _
    exact ne_of_gt (sumSq_pos_of_mem _ _ hmem hne)

theorem embedTextSyncAlt_idem : ∀ (t : JStr) (cache : List (JStr × List ℚ)),
    (embedTextSyncAlt t (embedTextSyncAlt t cache).2).1 =
      (embedTextSyncAlt t cache).1 := by
  intro t cache
  rcases h : cacheLookup cache (t.take 100) with _ | v
  · simp [embedTextSyncAlt, h, cacheLookup]
  · simp [embedTextSyncAlt, h]

/-- Claim C8, amended: the hash-seeded synchronous embedding
(`generateDeterministicVector`/`embedTextSync` of the alternate embeddings
module, the variant the spec follows) returns a 384-dimensional vector that
is a function of `simpleHash` of the text, has non-zero magnitude, and is
normalized to unit length by the final componentwise division by the
magnitude; a repeated call with the same text returns the same vector out of
the cache.  (Texts whose hashes differ need NOT get different vectors: the
cache is keyed by the first 100 characters, see the counterexample; and the
`embedTextSync` of the named module `src/embeddings.ts` ignores the text
entirely.) -/
theorem embed_deterministic_amended :
    ∀ (t t2 : JStr) (cache : List (JStr × List ℚ)),
      (gdvRaw t).length = VECTOR_SIZE ∧
      (simpleHash t2 = simpleHash t → gdvRaw t2 = gdvRaw t) ∧
      sumSq (gdvRaw t) ≠ 0 ∧
      (((gdvRaw t).map
          (fun x : ℚ => (x : ℝ) / Real.sqrt ((sumSq (gdvRaw t) : ℚ) : ℝ))).map
        (fun y : ℝ => y * y)).sum = 1 ∧
      (embedTextSyncAlt t (embedTextSyncAlt t cache).2).1 =
        (embedTextSyncAlt t cache).1 := by
  intro t t2 cache
  refine ⟨gdvRaw_length t, ?_, gdvRaw_sumSq_ne_zero t, ?_, embedTextSyncAlt_idem t cache⟩
  · intro h
    rw [gdvRaw, gdvRaw, h]
  · have hpos : (0 : ℚ) < sumSq (gdvRaw t) :=
      lt_of_le_of_ne (sumSq_nonneg _) (Ne.symm (gdvRaw_sumSq_ne_zero t))
    have hposR : (0 : ℝ) < ((sumSq (gdvRaw t) : ℚ) : ℝ) := by exact_mod_cast hpos
    have hsqrt : Real.sqrt ((sumSq (gdvRaw t) : ℚ) : ℝ) ≠ 0 :=
      ne_of_gt (Real.sqrt_pos.mpr hposR)
    rw [sum_sq_div, Real.mul_self_sqrt (le_of_lt hposR), ← sumSq_cast]
    exact div_self (ne_of_gt hposR)

theorem simpleHash_append_one (l : List Char) (c : Char) :
    simpleHash (l ++ [c]) = hashStep (simpleHash l) c := by
  rw [simpleHash, List.foldl_append]
  rfl

theorem toInt32_eq_imp (x y : Int) (h : toInt32 x = toInt32 y) :
    (x - y) % 2 ^ 32 = 0 := by
  rw [toInt32, toInt32, sub_left_inj] at h
  have h2 := Int.emod_eq_emod_iff_emod_sub_eq_zero.mp h
  have h3 : x + 2 ^ 31 - (y + 2 ^ 31) = x - y := by ring
  rw [h3] at h2
  exact h2

theorem hashStep_ne_of_code_succ (h : Int) (c d : Char)
    (hcd : (c.toNat : Int) + 1 = (d.toNat : Int)) :
    hashStep h c ≠ hashStep h d := by
  intro he
  rw [hashStep, hashStep] at he
  have h2 := toInt32_eq_imp _ _ he
  have h3 : toInt32 (h * 32) - h + (c.toNat : Int) -
      (toInt32 (h * 32) - h + (d.toNat : Int)) = -1 := by
    rw [← hcd]; ring
  rw [h3] at h2
  exact absurd h2 (by decide)

/-- Claim C8, counterexample: the two texts `'a'*100 ++ "b"` and
`'a'*100 ++ "c"` have different hashes, yet two successive calls of the
synchronous embedding return the same vector, because the cache key is only
the first 100 characters of the text. -/
theorem embed_hash_differs_same_vector_cex :
    (embedTextSyncAlt (List.replicate 100 'a' ++ ['c'])
        (embedTextSyncAlt (List.replicate 100 'a' ++ ['b']) []).2).1 =
      (embedTextSyncAlt (List.replicate 100 'a' ++ ['b']) []).1 ∧
    simpleHash (List.replicate 100 'a' ++ ['b']) ≠
      simpleHash (List.replicate 100 'a' ++ ['c']) := by
  constructor
  · have hkey : (List.replicate 100 'a' ++ ['c']).take 100 =
        (List.replicate 100 'a' ++ ['b']).take 100 := by decide
    simp [embedTextSyncAlt, cacheLookup, hkey]
  · rw [simpleHash_append_one, simpleHash_append_one]
    exact hashStep_ne_of_code_succ _ 'b' 'c' (by decide)

/-- Closed instance of the amended claim C8. -/
theorem embed_deterministic_amended_wit :
    gdvRaw (jstr "ab") = gdvRaw (jstr "ab") ∧
      (gdvRaw (jstr "a")).length = VECTOR_SIZE :=
  ⟨(embed_deterministic_amended (jstr "ab") (jstr "ab") []).2.1 rfl,
   (embed_deterministic_amended (jstr "a") (jstr "a") []).1⟩

/-! ### Retrieval fallback behaviour (claims C4, C5) -/

/-- Claim C4: the lexical fallback is consulted exactly when the vector
search errors or returns zero results.  A non-empty vector result is mapped
and returned, independently of the mirror state (so the lexical scan cannot
influence the answer); an erroring or empty vector search returns exactly the
fallback's answer; and the fallback returns `[]` both when the mirror
directory is absent and when the fallback itself throws. -/
theorem search_fallback_iff :
    ∀ (rs : List ScoredPoint)
      (folder folder2 : Option (Except Unit (List MirrorFile)))
      (q : JStr) (k : Nat),
      (rs ≠ [] → searchInQdrantModel (.ok rs) folder q k = rs.map toHit) ∧
      searchInQdrantModel (.error ()) folder q k = fallbackRun folder q k ∧
      searchInQdrantModel (.ok []) folder q k = fallbackRun folder q k ∧
      (rs ≠ [] → searchInQdrantModel (.ok rs) folder q k =
        searchInQdrantModel (.ok rs) folder2 q k) ∧
      fallbackRun none q k = [] ∧
      fallbackRun (some (.error ())) q k = [] := by
  intro rs folder folder2 q k
  refine ⟨?_, rfl, by simp [searchInQdrantModel], ?_, rfl, rfl⟩
  · intro h
    rw [searchInQdrantModel, if_pos (List.length_pos.mpr h)]
  · intro h
    rw [searchInQdrantModel, searchInQdrantModel,
      if_pos (List.length_pos.mpr h), if_pos (List.length_pos.mpr h)]

/-- Closed instance of claim C4: one vector result is returned as-is. -/
theorem search_fallback_iff_wit :
    searchInQdrantModel (.ok [⟨some ⟨jstr "u", jstr "c"⟩, 1⟩]) none (jstr "q") 7 =
      [toHit ⟨some ⟨jstr "u", jstr "c"⟩, 1⟩] :=
  (search_fallback_iff [⟨some ⟨jstr "u", jstr "c"⟩, 1⟩] none none (jstr "q") 7).1
    (by simp)

theorem insertScoreDesc_mem (x : SearchHit) :
    ∀ (l : List SearchHit) (z : SearchHit),
      z ∈ insertScoreDesc x l ↔ z = x ∨ z ∈ l := by
  intro l
  induction l with
  | nil => intro z; simp [insertScoreDesc]
  | cons y ys ih =>
    intro z
    rw [insertScoreDesc]
    by_cases h : y.score ≤ x.score
    · rw [if_pos h]
      simp [List.mem_cons]
    · rw [if_neg h]
      rw [List.mem_cons, ih z, List.mem_cons]
      tauto

theorem insertScoreDesc_pairwise (x : SearchHit) :
    ∀ l : List SearchHit, l.Pairwise (fun a b => b.score ≤ a.score) →
      (insertScoreDesc x l).Pairwise (fun a b => b.score ≤ a.score) := by
  intro l
  induction l with
  | nil => intro _; simp [insertScoreDesc]
  | cons y ys ih =>
    intro h
    rw [List.pairwise_cons] at h
    rw [insertScoreDesc]
    by_cases hxy : y.score ≤ x.score
    · rw [if_pos hxy]
      refine List.pairwise_cons.mpr ⟨?_, List.pairwise_cons.mpr h⟩
      intro z hz
      rcases List.mem_cons.mp hz with rfl | hz
      · exact hxy
      · exact le_trans (h.1 z hz) hxy
    · rw [if_neg hxy]
      refine List.pairwise_cons.mpr ⟨?_, ih h.2⟩
      intro z hz
      rcases (insertScoreDesc_mem x ys z).mp hz with rfl | hz
      · exact le_of_lt (lt_of_not_le hxy)
      · exact h.1 z hz

theorem sortScoreDesc_pairwise :
    ∀ l : List SearchHit,
      (sortScoreDesc l).Pairwise (fun a b => b.score ≤ a.score) := by
  intro l
  induction l with
  | nil => simp [sortScoreDesc]
  | cons x xs ih => exact insertScoreDesc_pairwise x _ ih

theorem itemHits_eq_spec (q : JStr) (it : PageDataItem) :
    itemHits (queryTerms q) it = specItemHits q it := by
  simp only [itemHits, specItemHits, specLexScore, specTermScore]
  by_cases h : 0 < ((queryTerms q).map (fun t => countOccs t (jsToLower it.chunk))).sum
  · rw [if_pos h, if_pos h]
    by_cases hl : 0 < it.chunk.length
    · rw [if_pos hl]
    · rw [if_neg hl]
      have h0 : it.chunk.length = 0 := by omega
      simp [h0]
  · rw [if_neg h, if_neg h]

theorem fallbackMatches_eq_spec (files : List MirrorFile) (q : JStr) :
    fallbackMatches files q = specMatchesList files q := by
  have hfun : itemHits (queryTerms q) = specItemHits q :=
    funext (itemHits_eq_spec q)
  rw [fallbackMatches, specMatchesList, hfun]

/-- Claim C5: the lexical fallback returns exactly the spec-scored rows
(one per stored chunk with a positive total of term occurrences, scored
`occurrences / length * 100`), sorted in descending score order and truncated
to `topK`. -/
theorem lexical_fallback_spec :
    ∀ (files : List MirrorFile) (q : JStr) (k : Nat),
      fallbackScan files q k = (sortScoreDesc (specMatchesList files q)).take k ∧
      (fallbackScan files q k).Pairwise (fun a b => b.score ≤ a.score) ∧
      (fallbackScan files q k).length ≤ k := by
  intro files q k
  have h1 : fallbackScan files q k =
      (sortScoreDesc (specMatchesList files q)).take k := by
    rw [fallbackScan, fallbackMatches_eq_spec]
  refine ⟨h1, ?_, ?_⟩
  · rw [h1]
    exact (sortScoreDesc_pairwise _).sublist (List.take_sublist _ _)
  · rw [fallbackScan]
    exact List.length_take_le _ _

/-- Closed instance of claim C5 on a one-file corpus. -/
theorem lexical_fallback_spec_wit :
    fallbackScan [⟨jstr "f.json", .ok [⟨jstr "installation steps", jstr "u", []⟩]⟩]
        (jstr "installation steps") 7 =
      (sortScoreDesc (specMatchesList
          [⟨jstr "f.json", .ok [⟨jstr "installation steps", jstr "u", []⟩]⟩]
          (jstr "installation steps"))).take 7 :=
  (lexical_fallback_spec _ _ _).1

/-! ### Crawl frontier (claims C6, C7, C10) -/

theorem enqueueLinks_cons (baseUrl : JStr) (depth : Nat) (l : JStr)
    (ls : List JStr) (st : CrawlState) :
    enqueueLinks baseUrl depth (l :: ls) st =
      enqueueLinks baseUrl depth ls
        (if normalizeUrl baseUrl l ∉ st.visited ∧
            baseUrl.isPrefixOf (normalizeUrl baseUrl l) then
           if ¬ st.toVisit.any (fun t => t.1 = normalizeUrl baseUrl l) then
             { st with toVisit := st.toVisit ++ [(normalizeUrl baseUrl l, depth + 1)] }
           else st
         else st) := rfl

theorem enqueueLinks_fields :
    ∀ (links : List JStr) (baseUrl : JStr) (depth : Nat) (st : CrawlState),
      (enqueueLinks baseUrl depth links st).visited = st.visited ∧
      (enqueueLinks baseUrl depth links st).visitEvents = st.visitEvents ∧
      (enqueueLinks baseUrl depth links st).dequeued = st.dequeued ∧
      (enqueueLinks baseUrl depth links st).stores = st.stores := by
  intro links
  induction links with
  | nil => intro baseUrl depth st; exact ⟨rfl, rfl, rfl, rfl⟩
  | cons l ls ih =>
    intro baseUrl depth st
    rw [enqueueLinks_cons]
    by_cases hc1 : normalizeUrl baseUrl l ∉ st.visited ∧
        baseUrl.isPrefixOf (normalizeUrl baseUrl l) = true
    · rw [if_pos hc1]
      by_cases hc2 : ¬ st.toVisit.any (fun t => t.1 = normalizeUrl baseUrl l) = true
      · rw [if_pos hc2]
        exact ih baseUrl depth _
      · rw [if_neg hc2]
        exact ih baseUrl depth st
    · rw [if_neg hc1]
      exact ih baseUrl depth st

theorem enqueueLinks_toVisit :
    ∀ (links : List JStr) (baseUrl : JStr) (depth : Nat) (st : CrawlState)
      (x : JStr × Nat),
      x ∈ (enqueueLinks baseUrl depth links st).toVisit →
      x ∈ st.toVisit ∨ x.2 = depth + 1 := by
  intro links
  induction links with
  | nil => intro baseUrl depth st x hx; exact Or.inl hx
  | cons l ls ih =>
    intro baseUrl depth st x hx
    rw [enqueueLinks_cons] at hx
    by_cases hc1 : normalizeUrl baseUrl l ∉ st.visited ∧
        baseUrl.isPrefixOf (normalizeUrl baseUrl l) = true
    · rw [if_pos hc1] at hx
      by_cases hc2 : ¬ st.toVisit.any (fun t => t.1 = normalizeUrl baseUrl l) = true
      · rw [if_pos hc2] at hx
        rcases ih baseUrl depth _ x hx with h | h
        · rcases List.mem_append.mp h with h3 | h3
          · exact Or.inl h3
          · right
            rw [List.mem_singleton.mp h3]
        · exact Or.inr h
      · rw [if_neg hc2] at hx
        exact ih baseUrl depth st x hx
    · rw [if_neg hc1] at hx
      exact ih baseUrl depth st x hx


theorem enqueueLinks_visited (links : List JStr) (baseUrl : JStr)
    (depth : Nat) (st : CrawlState) :
    (enqueueLinks baseUrl depth links st).visited = st.visited :=
  (enqueueLinks_fields links baseUrl depth st).1

theorem enqueueLinks_events (links : List JStr) (baseUrl : JStr)
    (depth : Nat) (st : CrawlState) :
    (enqueueLinks baseUrl depth links st).visitEvents = st.visitEvents :=
  (enqueueLinks_fields links baseUrl depth st).2.1

theorem enqueueLinks_dequeued (links : List JStr) (baseUrl : JStr)
    (depth : Nat) (st : CrawlState) :
    (enqueueLinks baseUrl depth links st).dequeued = st.dequeued :=
  (enqueueLinks_fields links baseUrl depth st).2.2.1

theorem enqueueLinks_stores (links : List JStr) (baseUrl : JStr)
    (depth : Nat) (st : CrawlState) :
    (enqueueLinks baseUrl depth links st).stores = st.stores :=
  (enqueueLinks_fields links baseUrl depth st).2.2.2

theorem enqueueLinks_added :
    ∀ (links : List JStr) (baseUrl : JStr) (depth : Nat) (st : CrawlState),
      ∃ added : List (JStr × Nat),
        (enqueueLinks baseUrl depth links st).toVisit = st.toVisit ++ added ∧
        (∀ e ∈ added,
          e.2 = depth + 1 ∧ (∃ l ∈ links, e.1 = normalizeUrl baseUrl l) ∧
            e.1 ∉ st.visited ∧ ∀ t ∈ st.toVisit, t.1 ≠ e.1) ∧
        (added.map Prod.fst).Nodup := by
  intro links
  induction links with
  | nil =>
    intro baseUrl depth st
    exact ⟨[], by simp [enqueueLinks], by simp, by simp⟩
  | cons l ls ih =>
    intro baseUrl depth st
    rw [enqueueLinks_cons]
    by_cases hc1 : normalizeUrl baseUrl l ∉ st.visited ∧
        baseUrl.isPrefixOf (normalizeUrl baseUrl l) = true
    · rw [if_pos hc1]
      by_cases hc2 : ¬ st.toVisit.any (fun t => t.1 = normalizeUrl baseUrl l) = true
      · rw [if_pos hc2]
        obtain ⟨added, h1, h2, h3⟩ := ih baseUrl depth
          { st with toVisit := st.toVisit ++ [(normalizeUrl baseUrl l, depth + 1)] }
        refine ⟨(normalizeUrl baseUrl l, depth + 1) :: added, ?_, ?_, ?_⟩
        · rw [h1]
          simp
        · intro e he
          rcases List.mem_cons.mp he with rfl | he
          · refine ⟨rfl, ⟨l, List.mem_cons_self _ _, rfl⟩, hc1.1, ?_⟩
            intro t ht hteq
            apply hc2
            rw [List.any_eq_true]
            exact ⟨t, ht, decide_eq_true hteq⟩
          · obtain ⟨he2, ⟨l2, hl2, hnl⟩, hvis, hfresh⟩ := h2 e he
            refine ⟨he2, ⟨l2, List.mem_cons_of_mem _ hl2, hnl⟩, hvis, ?_⟩
            intro t ht
            exact hfresh t (List.mem_append_left _ ht)
        · rw [List.map_cons]
          refine List.nodup_cons.mpr ⟨?_, h3⟩
          intro hmem
          obtain ⟨e, he, heq⟩ := List.mem_map.mp hmem
          obtain ⟨_, _, _, hfresh⟩ := h2 e he
          exact absurd heq.symm
            (hfresh (normalizeUrl baseUrl l, depth + 1)
              (List.mem_append_right _ (List.mem_singleton.mpr rfl)))
      · rw [if_neg hc2]
        obtain ⟨added, h1, h2, h3⟩ := ih baseUrl depth st
        refine ⟨added, h1, ?_, h3⟩
        intro e he
        obtain ⟨he2, ⟨l2, hl2, hnl⟩, hvis, hfresh⟩ := h2 e he
        exact ⟨he2, ⟨l2, List.mem_cons_of_mem _ hl2, hnl⟩, hvis, hfresh⟩
    · rw [if_neg hc1]
      obtain ⟨added, h1, h2, h3⟩ := ih baseUrl depth st
      refine ⟨added, h1, ?_, h3⟩
      intro e he
      obtain ⟨he2, ⟨l2, hl2, hnl⟩, hvis, hfresh⟩ := h2 e he
      exact ⟨he2, ⟨l2, List.mem_cons_of_mem _ hl2, hnl⟩, hvis, hfresh⟩

theorem enqueueLinks_nodup (links : List JStr) (baseUrl : JStr) (depth : Nat)
    (st : CrawlState) (h : (st.toVisit.map Prod.fst).Nodup) :
    ((enqueueLinks baseUrl depth links st).toVisit.map Prod.fst).Nodup := by
  obtain ⟨added, h1, h2, h3⟩ := enqueueLinks_added links baseUrl depth st
  rw [h1, List.map_append, List.nodup_append]
  refine ⟨h, h3, ?_⟩
  intro a ha hb
  obtain ⟨t, ht, rfl⟩ := List.mem_map.mp ha
  obtain ⟨e, he, heq⟩ := List.mem_map.mp hb
  exact absurd heq.symm ((h2 e he).2.2.2 t ht)

/-- Claim C9, amended: (i) a discovered link is retained by
`extractLinksFromPage` iff it parses, its hostname equals the
(slash-normalized) base URL's hostname, and the BASE URL's path is a prefix
of the LINK's path (the converse of the claim's direction) or the link's path
contains `/docs/`, `/guide/` or `/api/`; (ii) retained links are deduplicated
keeping first occurrences, so the retained list has no duplicates; (iii) the
depth-1 enqueue loop over the retained links preserves queue uniqueness by
normalized form — from a queue without duplicate URLs it produces a queue
without duplicate URLs — and every entry it adds is the normalized form of a
retained link, queued at depth + 1, that is neither visited nor already
queued: each retained link is enqueued at most once. -/
theorem link_filter_amended :
    ∀ (links : List JStr) (baseUrl href : JStr),
      (href ∈ extractLinksModel links baseUrl ↔
        href ∈ links ∧ linkKept (normalizeBaseUrl baseUrl) href = true) ∧
      (∀ u b, parseUrl href = some u →
        parseUrl (normalizeBaseUrl baseUrl) = some b →
        (linkKept (normalizeBaseUrl baseUrl) href = true ↔
          u.hostname = b.hostname ∧
            (b.pathname.isPrefixOf u.pathname = true ∨
              hasDocSegment u.pathname = true))) ∧
      (extractLinksModel links baseUrl).Nodup ∧
      ∀ (depth : Nat) (st : CrawlState),
        ((st.toVisit.map Prod.fst).Nodup →
          ((enqueueLinks baseUrl depth (extractLinksModel links baseUrl)
              st).toVisit.map Prod.fst).Nodup) ∧
        ∀ e ∈ (enqueueLinks baseUrl depth (extractLinksModel links baseUrl)
            st).toVisit,
          e ∈ st.toVisit ∨
            (e.2 = depth + 1 ∧
              (∃ l ∈ extractLinksModel links baseUrl,
                e.1 = normalizeUrl baseUrl l) ∧
              e.1 ∉ st.visited ∧ ∀ t ∈ st.toVisit, t.1 ≠ e.1) := by
  intro links baseUrl href
  refine ⟨?_, ?_, dedupFirst_nodup _ [], ?_⟩
  · rw [extractLinksModel, dedupFirst_mem]
    simp [List.mem_filter]
  · intro u b hu hb
    rw [linkKept, hu, hb]
    by_cases hh : u.hostname = b.hostname
    · simp [hh]
    · simp [hh]
  · intro depth st
    refine ⟨enqueueLinks_nodup _ baseUrl depth st, ?_⟩
    intro e he
    obtain ⟨added, h1, h2, _⟩ :=
      enqueueLinks_added (extractLinksModel links baseUrl) baseUrl depth st
    rw [h1] at he
    rcases List.mem_append.mp he with h | h
    · exact Or.inl h
    · exact Or.inr (h2 e h)

theorem storePhase_fields (baseUrl : JStr) (depth : Nat) (r : PageResult)
    (ident : JStr) (st : CrawlState) :
    (storePhase baseUrl depth r ident st).visited = st.visited ∧
    (storePhase baseUrl depth r ident st).visitEvents = st.visitEvents ∧
    (storePhase baseUrl depth r ident st).dequeued = st.dequeued := by
  rw [storePhase]
  by_cases h1 : 400 ≤ r.status
  · rw [if_pos h1]; exact ⟨rfl, rfl, rfl⟩
  rw [if_neg h1]
  by_cases h2 : r.extractOk = false
  · rw [if_pos h2]; exact ⟨rfl, rfl, rfl⟩
  rw [if_neg h2]
  dsimp only
  by_cases h4 : depth = 1
  · rw [if_pos h4, if_pos h4]
    by_cases h3 : jsTrim r.markdown = []
    · rw [if_pos h3]
      exact ⟨enqueueLinks_visited _ _ _ _, enqueueLinks_events _ _ _ _,
        enqueueLinks_dequeued _ _ _ _⟩
    · rw [if_neg h3]
      exact ⟨enqueueLinks_visited _ _ _ _, enqueueLinks_events _ _ _ _,
        enqueueLinks_dequeued _ _ _ _⟩
  · rw [if_neg h4, if_neg h4]
    by_cases h3 : jsTrim r.markdown = []
    · rw [if_pos h3]; exact ⟨rfl, rfl, rfl⟩
    · rw [if_neg h3]; exact ⟨rfl, rfl, rfl⟩

theorem storePhase_toVisit (baseUrl : JStr) (depth : Nat) (r : PageResult)
    (ident : JStr) (st : CrawlState) :
    ∀ x ∈ (storePhase baseUrl depth r ident st).toVisit,
      x ∈ st.toVisit ∨ x.2 = depth + 1 := by
  intro x hx
  rw [storePhase] at hx
  by_cases h1 : 400 ≤ r.status
  · rw [if_pos h1] at hx; exact Or.inl hx
  rw [if_neg h1] at hx
  by_cases h2 : r.extractOk = false
  · rw [if_pos h2] at hx; exact Or.inl hx
  rw [if_neg h2] at hx
  dsimp only at hx
  by_cases h4 : depth = 1
  · rw [if_pos h4, if_pos h4] at hx
    by_cases h3 : jsTrim r.markdown = []
    · rw [if_pos h3] at hx
      exact enqueueLinks_toVisit _ _ _ _ x hx
    · rw [if_neg h3] at hx
      exact enqueueLinks_toVisit _ _ _ _ x hx
  · rw [if_neg h4, if_neg h4] at hx
    by_cases h3 : jsTrim r.markdown = []
    · rw [if_pos h3] at hx; exact Or.inl hx
    · rw [if_neg h3] at hx; exact Or.inl hx

theorem storePhase_toVisit_ne1 (baseUrl : JStr) (depth : Nat) (r : PageResult)
    (ident : JStr) (st : CrawlState) (h : depth ≠ 1) :
    (storePhase baseUrl depth r ident st).toVisit = st.toVisit := by
  rw [storePhase]
  by_cases h1 : 400 ≤ r.status
  · rw [if_pos h1]
  · rw [if_neg h1]
    by_cases h2 : r.extractOk = false
    · rw [if_pos h2]
    · rw [if_neg h2]
      dsimp only
      rw [if_neg h, if_neg h]
      by_cases h3 : jsTrim r.markdown = []
      · rw [if_pos h3]
      · rw [if_neg h3]

theorem storePhase_stores (baseUrl : JStr) (depth : Nat) (r : PageResult)
    (ident : JStr) (st : CrawlState) :
    (storePhase baseUrl depth r ident st).stores = st.stores ∨
    (jsTrim r.markdown ≠ [] ∧ ∃ links,
      (storePhase baseUrl depth r ident st).stores = st.stores ++
        [⟨urlSlug baseUrl, urlSlug ident, [⟨r.markdown, ident, links⟩]⟩]) := by
  rw [storePhase]
  by_cases h1 : 400 ≤ r.status
  · rw [if_pos h1]; exact Or.inl rfl
  rw [if_neg h1]
  by_cases h2 : r.extractOk = false
  · rw [if_pos h2]; exact Or.inl rfl
  rw [if_neg h2]
  dsimp only
  by_cases h4 : depth = 1
  · rw [if_pos h4, if_pos h4]
    by_cases h3 : jsTrim r.markdown = []
    · rw [if_pos h3]
      exact Or.inl (enqueueLinks_stores _ _ _ _)
    · rw [if_neg h3]
      refine Or.inr ⟨h3,
        ⟨if r.linksOk then extractLinksModel r.links baseUrl else [], ?_⟩⟩
      show (enqueueLinks baseUrl depth _ st).stores ++ _ = _
      rw [enqueueLinks_stores]
  · rw [if_neg h4, if_neg h4]
    by_cases h3 : jsTrim r.markdown = []
    · rw [if_pos h3]; exact Or.inl rfl
    · rw [if_neg h3]
      exact Or.inr ⟨h3, ⟨_, rfl⟩⟩

theorem processTask_dequeued (render : JStr → Option PageResult)
    (baseUrl : JStr) (task : JStr × Nat) (rest : List (JStr × Nat))
    (st : CrawlState) :
    (processTask render baseUrl task rest st).dequeued =
      st.dequeued ++ [task] := by
  rw [processTask]
  dsimp only
  by_cases h1 : normalizeUrl baseUrl task.1 ∈ st.visited
  · rw [if_pos h1]
  · rw [if_neg h1]
    rcases hr : render (normalizeUrl baseUrl task.1) with _ | r
    · rfl
    · dsimp only
      by_cases h2 : r.finalUrl ≠ normalizeUrl baseUrl task.1 ∧
          r.finalUrl ∈ normalizeUrl baseUrl task.1 :: st.visited
      · rw [if_pos h2]
      · rw [if_neg h2]
        by_cases h3 : r.finalUrl ≠ normalizeUrl baseUrl task.1
        · rw [if_pos h3, (storePhase_fields _ _ _ _ _).2.2]
        · rw [if_neg h3, (storePhase_fields _ _ _ _ _).2.2]

theorem processTask_toVisit (render : JStr → Option PageResult)
    (baseUrl : JStr) (task : JStr × Nat) (rest : List (JStr × Nat))
    (st : CrawlState) :
    ∀ x ∈ (processTask render baseUrl task rest st).toVisit,
      x ∈ rest ∨ x.2 = task.2 + 1 := by
  intro x hx
  rw [processTask] at hx
  dsimp only at hx
  by_cases h1 : normalizeUrl baseUrl task.1 ∈ st.visited
  · rw [if_pos h1] at hx; exact Or.inl hx
  · rw [if_neg h1] at hx
    rcases hr : render (normalizeUrl baseUrl task.1) with _ | r
    · rw [hr] at hx
      exact Or.inl hx
    · rw [hr] at hx
      dsimp only at hx
      by_cases h2 : r.finalUrl ≠ normalizeUrl baseUrl task.1 ∧
          r.finalUrl ∈ normalizeUrl baseUrl task.1 :: st.visited
      · rw [if_pos h2] at hx; exact Or.inl hx
      · rw [if_neg h2] at hx
        by_cases h3 : r.finalUrl ≠ normalizeUrl baseUrl task.1
        · rw [if_pos h3] at hx
          exact storePhase_toVisit _ _ _ _ _ x hx
        · rw [if_neg h3] at hx
          exact storePhase_toVisit _ _ _ _ _ x hx

theorem processTask_toVisit_ne1 (render : JStr → Option PageResult)
    (baseUrl : JStr) (task : JStr × Nat) (rest : List (JStr × Nat))
    (st : CrawlState) (h : task.2 ≠ 1) :
    (processTask render baseUrl task rest st).toVisit = rest := by
  rw [processTask]
  dsimp only
  by_cases h1 : normalizeUrl baseUrl task.1 ∈ st.visited
  · rw [if_pos h1]
  · rw [if_neg h1]
    rcases hr : render (normalizeUrl baseUrl task.1) with _ | r
    · rfl
    · dsimp only
      by_cases h2 : r.finalUrl ≠ normalizeUrl baseUrl task.1 ∧
          r.finalUrl ∈ normalizeUrl baseUrl task.1 :: st.visited
      · rw [if_pos h2]
      · rw [if_neg h2]
        by_cases h3 : r.finalUrl ≠ normalizeUrl baseUrl task.1
        · rw [if_pos h3, storePhase_toVisit_ne1 _ _ _ _ _ h]
        · rw [if_neg h3, storePhase_toVisit_ne1 _ _ _ _ _ h]

theorem processTask_visit_evolution (render : JStr → Option PageResult)
    (baseUrl : JStr) (task : JStr × Nat) (rest : List (JStr × Nat))
    (st : CrawlState) :
    ((processTask render baseUrl task rest st).visitEvents = st.visitEvents ∧
      (processTask render baseUrl task rest st).visited = st.visited) ∨
    (∃ u, u ∉ st.visited ∧
      (processTask render baseUrl task rest st).visitEvents =
        st.visitEvents ++ [u] ∧
      (processTask render baseUrl task rest st).visited = u :: st.visited) ∨
    (∃ u v, u ∉ st.visited ∧ v ∉ u :: st.visited ∧
      (processTask render baseUrl task rest st).visitEvents =
        st.visitEvents ++ [u] ++ [v] ∧
      (processTask render baseUrl task rest st).visited =
        v :: u :: st.visited) := by
  rw [processTask]
  dsimp only
  by_cases h1 : normalizeUrl baseUrl task.1 ∈ st.visited
  · rw [if_pos h1]; exact Or.inl ⟨rfl, rfl⟩
  · rw [if_neg h1]
    rcases hr : render (normalizeUrl baseUrl task.1) with _ | r
    · exact Or.inr (Or.inl ⟨normalizeUrl baseUrl task.1, h1, rfl, rfl⟩)
    · dsimp only
      by_cases h2 : r.finalUrl ≠ normalizeUrl baseUrl task.1 ∧
          r.finalUrl ∈ normalizeUrl baseUrl task.1 :: st.visited
      · rw [if_pos h2]
        exact Or.inr (Or.inl ⟨normalizeUrl baseUrl task.1, h1, rfl, rfl⟩)
      · rw [if_neg h2]
        by_cases h3 : r.finalUrl ≠ normalizeUrl baseUrl task.1
        · rw [if_pos h3]
          refine Or.inr (Or.inr
            ⟨normalizeUrl baseUrl task.1, r.finalUrl, h1,
              fun hc => h2 ⟨h3, hc⟩, ?_, ?_⟩)
          · rw [(storePhase_fields _ _ _ _ _).2.1]
          · rw [(storePhase_fields _ _ _ _ _).1]
        · rw [if_neg h3]
          refine Or.inr (Or.inl ⟨normalizeUrl baseUrl task.1, h1, ?_, ?_⟩)
          · rw [(storePhase_fields _ _ _ _ _).2.1]
          · rw [(storePhase_fields _ _ _ _ _).1]

theorem processTask_stores_evolution (render : JStr → Option PageResult)
    (baseUrl : JStr) (task : JStr × Nat) (rest : List (JStr × Nat))
    (st : CrawlState) :
    (processTask render baseUrl task rest st).stores = st.stores ∨
    (∃ r : PageResult, ∃ ident links,
      render (normalizeUrl baseUrl task.1) = some r ∧
      jsTrim r.markdown ≠ [] ∧
      (processTask render baseUrl task rest st).stores = st.stores ++
        [⟨urlSlug baseUrl, urlSlug ident, [⟨r.markdown, ident, links⟩]⟩]) := by
  rw [processTask]
  dsimp only
  by_cases h1 : normalizeUrl baseUrl task.1 ∈ st.visited
  · rw [if_pos h1]; exact Or.inl rfl
  · rw [if_neg h1]
    rcases hr : render (normalizeUrl baseUrl task.1) with _ | r
    · exact Or.inl rfl
    · dsimp only
      by_cases h2 : r.finalUrl ≠ normalizeUrl baseUrl task.1 ∧
          r.finalUrl ∈ normalizeUrl baseUrl task.1 :: st.visited
      · rw [if_pos h2]; exact Or.inl rfl
      · rw [if_neg h2]
        by_cases h3 : r.finalUrl ≠ normalizeUrl baseUrl task.1
        · rw [if_pos h3]
          rcases storePhase_stores baseUrl task.2 r r.finalUrl _ with h | ⟨hmd, links, heq⟩
          · rw [h]; exact Or.inl rfl
          · rw [heq]
            exact Or.inr ⟨r, r.finalUrl, links, rfl, hmd, rfl⟩
        · rw [if_neg h3]
          rcases storePhase_stores baseUrl task.2 r (normalizeUrl baseUrl task.1) _ with h | ⟨hmd, links, heq⟩
          · rw [h]; exact Or.inl rfl
          · rw [heq]
            exact Or.inr ⟨r, normalizeUrl baseUrl task.1, links, rfl, hmd, rfl⟩

theorem crawlRun_preserves (render : JStr → Option PageResult) (baseUrl : JStr)
    (P : CrawlState → Prop)
    (hstep : ∀ task rest st, st.toVisit = task :: rest → P st →
      P (processTask render baseUrl task rest st)) :
    ∀ (fuel : Nat) (st st' : CrawlState),
      P st → crawlRun render baseUrl fuel st = some st' → P st' := by
  intro fuel
  induction fuel with
  | zero =>
    intro st st' hP h
    rcases hq : st.toVisit with _ | ⟨t, rest⟩
    · rw [crawlRun, hq] at h
      cases h
      exact hP
    · rw [crawlRun, hq] at h
      cases h
  | succ n ih =>
    intro st st' hP h
    rcases hq : st.toVisit with _ | ⟨t, rest⟩
    · rw [crawlRun, hq] at h
      cases h
      exact hP
    · rw [crawlRun, hq] at h
      exact ih _ st' (hstep t rest st hq hP) h

theorem crawlRun_toVisit_nil (render : JStr → Option PageResult)
    (baseUrl : JStr) :
    ∀ (fuel : Nat) (st st' : CrawlState),
      crawlRun render baseUrl fuel st = some st' → st'.toVisit = [] := by
  intro fuel
  induction fuel with
  | zero =>
    intro st st' h
    rcases hq : st.toVisit with _ | ⟨t, rest⟩
    · rw [crawlRun, hq] at h
      cases h
      exact hq
    · rw [crawlRun, hq] at h
      cases h
  | succ n ih =>
    intro st st' h
    rcases hq : st.toVisit with _ | ⟨t, rest⟩
    · rw [crawlRun, hq] at h
      cases h
      exact hq
    · rw [crawlRun, hq] at h
      exact ih _ st' h

/-- Claim C6: starting from the seed at depth 1, every task the crawl loop
ever dequeues has depth at most 2 (the frontier only ever holds tasks of
depth 1 or 2, because links are enqueued at `depth + 1` only while a depth-1
task is being processed). -/
theorem depth_bound_le_two :
    ∀ (render : JStr → Option PageResult) (baseUrl : JStr) (fuel : Nat)
      (st' : CrawlState),
      crawlRun render baseUrl fuel (initState baseUrl) = some st' →
      ∀ x ∈ st'.dequeued, x.2 ≤ 2 := by
  intro render baseUrl fuel st' h
  have main := crawlRun_preserves render baseUrl
    (fun st => (∀ x ∈ st.toVisit, x.2 = 1 ∨ x.2 = 2) ∧
      (∀ x ∈ st.dequeued, x.2 ≤ 2))
    ?_ fuel (initState baseUrl) st' ?_ h
  · exact main.2
  · intro task rest st hq hP
    constructor
    · intro x hx
      by_cases hd : task.2 = 1
      · rcases processTask_toVisit render baseUrl task rest st x hx with h2 | h2
        · exact hP.1 x (hq ▸ List.mem_cons_of_mem task h2)
        · right
          rw [h2, hd]
      · rw [processTask_toVisit_ne1 render baseUrl task rest st hd] at hx
        exact hP.1 x (hq ▸ List.mem_cons_of_mem task hx)
    · intro x hx
      rw [processTask_dequeued] at hx
      rcases List.mem_append.mp hx with h2 | h2
      · exact hP.2 x h2
      · rw [List.mem_singleton.mp h2]
        rcases hP.1 task (hq ▸ List.mem_cons_self task rest) with h3 | h3 <;> omega
  · constructor
    · intro x hx
      rw [initState] at hx
      rw [List.mem_singleton.mp hx]
      exact Or.inl rfl
    · intro x hx
      rw [initState] at hx
      simp at hx

theorem crawlRun_events_nodup (render : JStr → Option PageResult)
    (baseUrl : JStr) (fuel : Nat) (st st' : CrawlState)
    (h1 : st.visitEvents.Nodup) (h2 : ∀ u ∈ st.visitEvents, u ∈ st.visited)
    (h : crawlRun render baseUrl fuel st = some st') :
    st'.visitEvents.Nodup := by
  have main := crawlRun_preserves render baseUrl
    (fun s => s.visitEvents.Nodup ∧ ∀ u ∈ s.visitEvents, u ∈ s.visited)
    ?_ fuel st st' ⟨h1, h2⟩ h
  · exact main.1
  · intro task rest s _ hP
    rcases processTask_visit_evolution render baseUrl task rest s with
      ⟨he, hv⟩ | ⟨u, hu, he, hv⟩ | ⟨u, v, hu, hv2, he, hv⟩
    · rw [he, hv]
      exact hP
    · rw [he, hv]
      constructor
      · rw [List.nodup_append]
        refine ⟨hP.1, List.nodup_singleton u, ?_⟩
        intro a ha hb
        rw [List.mem_singleton.mp hb] at ha
        exact hu (hP.2 u ha)
      · intro w hw
        rcases List.mem_append.mp hw with h3 | h3
        · exact List.mem_cons_of_mem u (hP.2 w h3)
        · rw [List.mem_singleton.mp h3]
          exact List.mem_cons_self u _
    · rw [he, hv]
      constructor
      · rw [List.nodup_append]
        refine ⟨?_, List.nodup_singleton v, ?_⟩
        · rw [List.nodup_append]
          refine ⟨hP.1, List.nodup_singleton u, ?_⟩
          intro a ha hb
          rw [List.mem_singleton.mp hb] at ha
          exact hu (hP.2 u ha)
        · intro a ha hb
          rw [List.mem_singleton.mp hb] at ha
          rcases List.mem_append.mp ha with h3 | h3
          · exact hv2 (List.mem_cons_of_mem u (hP.2 v h3))
          · rw [List.mem_singleton.mp h3] at hv2
            exact hv2 (List.mem_cons_self u _)
      · intro w hw
        rcases List.mem_append.mp hw with h3 | h3
        · rcases List.mem_append.mp h3 with h4 | h4
          · exact List.mem_cons_of_mem v (List.mem_cons_of_mem u (hP.2 w h4))
          · rw [List.mem_singleton.mp h4]
            exact List.mem_cons_of_mem v (List.mem_cons_self u _)
        · rw [List.mem_singleton.mp h3]
          exact List.mem_cons_self v _

theorem crawlRun_drain (render : JStr → Option PageResult) (baseUrl : JStr) :
    ∀ (n : Nat) (st : CrawlState), st.toVisit.length = n →
      (∀ x ∈ st.toVisit, x.2 ≠ 1) →
      ∃ st', crawlRun render baseUrl n st = some st' := by
  intro n
  induction n with
  | zero =>
    intro st h1 _
    have hq : st.toVisit = [] := List.length_eq_zero.mp h1
    exact ⟨st, by rw [crawlRun, hq]⟩
  | succ m ih =>
    intro st h1 h2
    rcases hq : st.toVisit with _ | ⟨t, rest⟩
    · exact ⟨st, by rw [crawlRun, hq]⟩
    · have hne : t.2 ≠ 1 := h2 t (hq ▸ List.mem_cons_self t rest)
      have hTv : (processTask render baseUrl t rest st).toVisit = rest :=
        processTask_toVisit_ne1 render baseUrl t rest st hne
      have hlen : (processTask render baseUrl t rest st).toVisit.length = m := by
        rw [hTv]
        have h3 := congrArg List.length hq
        rw [h1] at h3
        simp at h3
        omega
      have hall : ∀ x ∈ (processTask render baseUrl t rest st).toVisit,
          x.2 ≠ 1 := by
        rw [hTv]
        intro x hx
        exact h2 x (hq ▸ List.mem_cons_of_mem t hx)
      obtain ⟨st', hst'⟩ := ih _ hlen hall
      refine ⟨st', ?_⟩
      rw [crawlRun, hq]
      exact hst'

/-- Claim C7: for every render oracle (hence every reachable link graph) the
crawl frontier empties after finitely many steps, and the chronological list
of URLs marked visited (the identities under which pages are processed,
including redirect targets) has no duplicates: no URL is processed twice. -/
theorem frontier_terminates_no_revisit :
    ∀ (render : JStr → Option PageResult) (baseUrl : JStr),
      ∃ (fuel : Nat) (st' : CrawlState),
        crawlRun render baseUrl fuel (initState baseUrl) = some st' ∧
        st'.toVisit = [] ∧ st'.visitEvents.Nodup := by
  intro render baseUrl
  have h2 : ∀ x ∈ (processTask render baseUrl (baseUrl, 1) []
      (initState baseUrl)).toVisit, x.2 ≠ 1 := by
    intro x hx
    rcases processTask_toVisit render baseUrl (baseUrl, 1) []
      (initState baseUrl) x hx with h | h
    · simp at h
    · rw [h]
      omega
  obtain ⟨st', hrun⟩ := crawlRun_drain render baseUrl
    (processTask render baseUrl (baseUrl, 1) [] (initState baseUrl)).toVisit.length
    (processTask render baseUrl (baseUrl, 1) [] (initState baseUrl)) rfl h2
  have hfull : crawlRun render baseUrl
      ((processTask render baseUrl (baseUrl, 1) [] (initState baseUrl)).toVisit.length + 1)
      (initState baseUrl) = some st' := by
    rw [crawlRun]
    exact hrun
  refine ⟨_, st', hfull, crawlRun_toVisit_nil render baseUrl _ _ _ hfull, ?_⟩
  exact crawlRun_events_nodup render baseUrl _ _ _ (List.nodup_nil)
    (by intro u hu; simp [initState] at hu) hfull

theorem upsertPointsAll_chunks (embed : JStr → List ℚ) (fileSlug : JStr)
    (pageData : List PageDataItem) :
    (upsertPointsAll embed fileSlug pageData).map (fun p => p.payload.chunk) =
      pageData.map PageDataItem.chunk := by
  rw [upsertPointsAll, upsertBatchesAux_chunks embed fileSlug _ _ 0 le_rfl]

/-- Claim C10: every page stored by the crawl path has a single-element
chunk array whose sole chunk is the entire markdown the renderer extracted
for that page (which trims non-empty), and the points upserted for it carry
exactly that one chunk in their payload; the semantic chunker plays no part
in what is stored. -/
theorem crawl_single_chunk_per_page :
    ∀ (render : JStr → Option PageResult) (baseUrl : JStr) (fuel : Nat)
      (st' : CrawlState),
      crawlRun render baseUrl fuel (initState baseUrl) = some st' →
      ∀ e ∈ st'.stores,
        ∃ (u : JStr) (r : PageResult) (ident : JStr) (links : List JStr),
          render u = some r ∧ jsTrim r.markdown ≠ [] ∧
          e.pageData = [⟨r.markdown, ident, links⟩] ∧
          ∀ embed : JStr → List ℚ,
            (upsertPointsAll embed e.fileSlug e.pageData).map
              (fun p => p.payload.chunk) = [r.markdown] := by
  intro render baseUrl fuel st' h e he
  have main := crawlRun_preserves render baseUrl
    (fun s => ∀ e2 ∈ s.stores,
      ∃ (u : JStr) (r : PageResult) (ident : JStr) (links : List JStr),
        render u = some r ∧ jsTrim r.markdown ≠ [] ∧
        e2.pageData = [⟨r.markdown, ident, links⟩])
    ?_ fuel (initState baseUrl) st' ?_ h
  · obtain ⟨u, r, ident, links, hr, hmd, hpd⟩ := main e he
    refine ⟨u, r, ident, links, hr, hmd, hpd, ?_⟩
    intro embed
    rw [upsertPointsAll_chunks, hpd]
    rfl
  · intro task rest s _ hP e2 he2
    rcases processTask_stores_evolution render baseUrl task rest s with
      hsame | ⟨r, ident, links, hr, hmd, heq⟩
    · rw [hsame] at he2
      exact hP e2 he2
    · rw [heq] at he2
      rcases List.mem_append.mp he2 with h3 | h3
      · exact hP e2 h3
      · rw [List.mem_singleton.mp h3]
        exact ⟨normalizeUrl baseUrl task.1, r, ident, links, hr, hmd, rfl⟩
  · intro e2 he2
    simp [initState] at he2

/-- Closed instance of claim C6 on the demo crawl. -/
theorem depth_bound_le_two_wit : ((jstr "http://a", 1) : JStr × Nat).2 ≤ 2 :=
  depth_bound_le_two demoRender demoBase 4 demoFinal (by decide)
    (jstr "http://a", 1) (by decide)

/-- Closed instance of claim C10 on the demo crawl. -/
theorem crawl_single_chunk_per_page_wit : demoStore.pageData.length = 1 := by
  obtain ⟨u, r, ident, links, _, _, hpd, _⟩ :=
    crawl_single_chunk_per_page demoRender demoBase 4 demoFinal (by decide)
      demoStore (by decide)
  rw [hpd]
  rfl

/-! ### Chunker: string-level evaluation lemmas (claims C1, C2) -/

theorem dropWhile_cons_a (t : JStr) :
    List.dropWhile isJsWs ('a' :: t) = 'a' :: t := by
  rw [List.dropWhile_cons, if_neg (by decide)]

theorem jsTrim_eq_self (l : JStr) (h1 : ∃ t, l = 'a' :: t)
    (h2 : ∃ t, l.reverse = 'a' :: t) : jsTrim l = l := by
  obtain ⟨t1, ht1⟩ := h1
  obtain ⟨t2, ht2⟩ := h2
  rw [jsTrim]
  rw [ht1, dropWhile_cons_a, ← ht1, ht2, dropWhile_cons_a, ← ht2,
    List.reverse_reverse]

theorem jsTrim_append_nl (l : JStr) (h1 : ∃ t, l = 'a' :: t)
    (h2 : ∃ t, l.reverse = 'a' :: t) : jsTrim (l ++ ['\n']) = l := by
  obtain ⟨t1, ht1⟩ := h1
  obtain ⟨t2, ht2⟩ := h2
  rw [jsTrim]
  have hfront : List.dropWhile isJsWs (l ++ ['\n']) = l ++ ['\n'] := by
    rw [ht1]
    exact dropWhile_cons_a _
  rw [hfront, List.reverse_append, List.reverse_singleton,
    List.singleton_append, List.dropWhile_cons, if_pos (by decide),
    ht2, dropWhile_cons_a, ← ht2, List.reverse_reverse]

theorem splitOnChar_cons_eq (sep c : Char) (cs h1 : JStr) (t1 : List JStr)
    (h : splitOnChar sep cs = h1 :: t1) :
    splitOnChar sep (c :: cs) =
      if c = sep then [] :: h1 :: t1 else (c :: h1) :: t1 := by
  rw [splitOnChar, h]

theorem splitOnChar_ne_nil (sep : Char) : ∀ l : JStr, splitOnChar sep l ≠ [] := by
  intro l
  induction l with
  | nil => simp [splitOnChar]
  | cons c cs ih =>
    rcases h : splitOnChar sep cs with _ | ⟨h1, t1⟩
    · exact absurd h ih
    · rw [splitOnChar_cons_eq sep c cs h1 t1 h]
      by_cases hc : c = sep
      · rw [if_pos hc]; simp
      · rw [if_neg hc]; simp

theorem splitOnChar_not_mem (sep : Char) :
    ∀ l : JStr, sep ∉ l → splitOnChar sep l = [l] := by
  intro l
  induction l with
  | nil => intro _; rfl
  | cons c cs ih =>
    intro h
    have hc : c ≠ sep := fun hx => h (hx ▸ List.mem_cons_self c cs)
    have hcs : sep ∉ cs := fun hx => h (List.mem_cons_of_mem c hx)
    rw [splitOnChar_cons_eq sep c cs cs [] (ih hcs), if_neg hc]

theorem splitOnChar_append (sep : Char) :
    ∀ (x y : JStr), sep ∉ x →
      splitOnChar sep (x ++ sep :: y) = x :: splitOnChar sep y := by
  intro x
  induction x with
  | nil =>
    intro y _
    rcases h : splitOnChar sep y with _ | ⟨h1, t1⟩
    · exact absurd h (splitOnChar_ne_nil sep y)
    · rw [List.nil_append, splitOnChar_cons_eq sep sep y h1 t1 h,
        if_pos rfl, ← h]
  | cons c cs ih =>
    intro y h
    have hc : c ≠ sep := fun hx => h (hx ▸ List.mem_cons_self c cs)
    have hcs : sep ∉ cs := fun hx => h (List.mem_cons_of_mem c hx)
    rcases h2 : splitOnChar sep (cs ++ sep :: y) with _ | ⟨h1, t1⟩
    · exact absurd h2 (splitOnChar_ne_nil sep _)
    · rw [List.cons_append, splitOnChar_cons_eq sep c _ h1 t1 h2, if_neg hc]
      rw [ih y hcs] at h2
      rw [List.cons.injEq] at h2
      rw [h2.1, h2.2]

theorem headerMatch_not_hash (c : Char) (t : JStr) (h : c ≠ '#') :
    headerMatch (c :: t) = none := by
  rw [headerMatch]
  have htw : (c :: t).takeWhile (fun c => c = '#') = [] := by
    rw [List.takeWhile_cons]
    simp [h]
  rw [htw]
  norm_num

theorem joinNl_splitOnChar :
    ∀ md : JStr,
      ((splitOnChar '\n' md).map (fun l => l ++ ['\n'])).flatten =
        md ++ ['\n'] := by
  intro md
  induction md with
  | nil => rfl
  | cons c cs ih =>
    rcases h : splitOnChar '\n' cs with _ | ⟨h1, t1⟩
    · exact absurd h (splitOnChar_ne_nil '\n' cs)
    · rw [splitOnChar_cons_eq '\n' c cs h1 t1 h]
      rw [h] at ih
      by_cases hc : c = '\n'
      · rw [if_pos hc, List.map_cons, List.flatten_cons, ih, hc]
        rfl
      · rw [if_neg hc]
        rw [List.map_cons, List.flatten_cons] at ih ⊢
        rw [List.cons_append, List.cons_append, ih]
        rfl

theorem parseLine_no_header (st : ParseState) (l : JStr)
    (hl : headerMatch l = none) :
    parseLine st l = ⟨st.root, st.curPath, st.curContent ++ l ++ ['\n']⟩ := by
  rw [parseLine, hl]

theorem foldl_parseLine_no_header :
    ∀ (lines : List JStr) (st : ParseState),
      (∀ l ∈ lines, headerMatch l = none) →
      lines.foldl parseLine st =
        ⟨st.root, st.curPath,
          st.curContent ++ (lines.map (fun l => l ++ ['\n'])).flatten⟩ := by
  intro lines
  induction lines with
  | nil => intro st _; simp
  | cons l ls ih =>
    intro st h
    rw [List.foldl_cons,
      parseLine_no_header st l (h l (List.mem_cons_self _ _)),
      ih _ (fun x hx => h x (List.mem_cons_of_mem _ hx))]
    simp [List.append_assoc]

theorem appendContentAt_root (t : JStr) (lvl : Nat) (c : JStr)
    (ch : List SectionNode) (txt : JStr) :
    appendContentAt (SectionNode.mk t lvl c ch) [] txt =
      SectionNode.mk t lvl (c ++ txt) ch := rfl

theorem parse_no_header (md : JStr)
    (h : ∀ l ∈ splitOnChar '\n' md, headerMatch l = none) :
    parseDocumentStructure md =
      SectionNode.mk (jstr "Document Root") 0 (jsTrim (md ++ ['\n'])) [] := by
  rw [parseDocumentStructure]
  rw [foldl_parseLine_no_header _ _ h]
  dsimp only
  rw [joinNl_splitOnChar, List.nil_append]
  by_cases hc : jsTrim (md ++ ['\n']) = []
  · rw [if_neg (by simp [hc]), hc]
  · rw [if_pos (by simp [hc]), appendContentAt_root, List.nil_append]

theorem replicate_a_nonws (n : Nat) :
    ∀ c ∈ List.replicate n 'a', isJsWs c = false := by
  intro c hc
  rw [List.eq_of_mem_replicate hc]
  rfl

theorem jsTrim_replicate_a (n : Nat) :
    jsTrim (List.replicate (n + 1) 'a') = List.replicate (n + 1) 'a' := by
  apply jsTrim_eq_self
  · exact ⟨List.replicate n 'a', List.replicate_succ 'a' n⟩
  · rw [List.reverse_replicate]
    exact ⟨List.replicate n 'a', List.replicate_succ 'a' n⟩

theorem jsTrim_replicate_a_nl (n : Nat) :
    jsTrim (List.replicate (n + 1) 'a' ++ ['\n']) =
      List.replicate (n + 1) 'a' := by
  apply jsTrim_append_nl
  · exact ⟨List.replicate n 'a', List.replicate_succ 'a' n⟩
  · rw [List.reverse_replicate]
    exact ⟨List.replicate n 'a', List.replicate_succ 'a' n⟩

theorem headerMatch_replicate_a (n : Nat) :
    headerMatch (List.replicate (n + 1) 'a') = none := by
  rw [List.replicate_succ]
  exact headerMatch_not_hash 'a' _ (by decide)

theorem parse_longPara :
    parseDocumentStructure longPara =
      SectionNode.mk (jstr "Document Root") 0 longPara [] := by
  have hsplit : splitOnChar '\n' longPara = [longPara] := by
    apply splitOnChar_not_mem
    rw [longPara]
    intro hmem
    exact absurd (List.eq_of_mem_replicate hmem) (by decide)
  rw [parse_no_header longPara ?hlines]
  case hlines =>
    rw [hsplit]
    intro l hl
    rw [List.mem_singleton.mp hl, longPara,
      show (4001 : Nat) = 4000 + 1 from rfl]
    exact headerMatch_replicate_a 4000
  rw [longPara, show (4001 : Nat) = 4000 + 1 from rfl, jsTrim_replicate_a_nl]

theorem splitBlocksAux_end (cur : JStr) : splitBlocksAux [] cur [] = [cur] := by
  rw [splitBlocksAux]
  norm_num

theorem splitBlocksAux_nonws :
    ∀ (x : JStr), (∀ c ∈ x, isJsWs c = false) →
      ∀ (rest cur : JStr),
        splitBlocksAux (x ++ rest) cur [] = splitBlocksAux rest (cur ++ x) [] := by
  intro x
  induction x with
  | nil => intro _ rest cur; simp
  | cons c cs ih =>
    intro h rest cur
    have hc : isJsWs c = false := h c (List.mem_cons_self _ _)
    rw [List.cons_append, splitBlocksAux, hc]
    norm_num
    rw [ih (fun d hd => h d (List.mem_cons_of_mem _ hd)) rest (cur ++ [c])]
    simp

theorem splitBlocksAux_sep (c : Char) (hc : isJsWs c = false) (rest cur : JStr) :
    splitBlocksAux ('\n' :: '\n' :: c :: rest) cur [] =
      cur :: splitBlocksAux rest [c] [] := by
  rw [splitBlocksAux, if_pos (show isJsWs '\n' = true from rfl)]
  rw [splitBlocksAux, if_pos (show isJsWs '\n' = true from rfl)]
  rw [splitBlocksAux, hc]
  norm_num
  rw [show afterLastNl ['\n', '\n'] = [] from rfl]
  simp

theorem headerMatch_nil : headerMatch [] = none := by decide

theorem longPara_ne_nil : longPara ≠ [] := by
  intro h
  have h2 : longPara.length = 0 := by rw [h]; rfl
  rw [longPara, List.length_replicate] at h2
  exact absurd h2 (by norm_num)

theorem jsTrim_longPara : jsTrim longPara = longPara := by
  rw [longPara, show (4001 : Nat) = 4000 + 1 from rfl]
  exact jsTrim_replicate_a 4000

theorem splitBlocksAux_all_nonws (x : JStr) (h : ∀ c ∈ x, isJsWs c = false) :
    splitBlocksAux x [] [] = [x] := by
  have h2 := splitBlocksAux_nonws x h [] []
  rw [List.append_nil] at h2
  rw [h2, List.nil_append, splitBlocksAux_end]

theorem splitIntoParagraphs_longPara :
    splitIntoParagraphs longPara = [longPara] := by
  rw [splitIntoParagraphs, splitBlocks,
    splitBlocksAux_all_nonws longPara (by rw [longPara]; exact replicate_a_nonws 4001)]
  simp [jsTrim_longPara, longPara_ne_nil]

theorem chunkLoop_stuck (p : JStr) (hp : MAX_CHUNK_SIZE ≤ p.length)
    (sect : JStr) :
    ∀ (fuel : Nat) (acc : List Chunk), chunkLoop [p] sect fuel 0 acc = none := by
  have hM : MAX_CHUNK_SIZE = 4000 := rfl
  have hp4 : 4000 ≤ p.length := hM ▸ hp
  have hcons : consume [p] [] = ([p], []) := by
    rw [consume, if_neg (by simp only [List.length_nil, Nat.zero_add, hM]; omega)]
  intro fuel
  induction fuel with
  | zero => intro acc; rfl
  | succ n ih =>
    intro acc
    rw [chunkLoop, if_pos (by simp), List.drop_zero, hcons]
    dsimp only
    have hO : CHUNK_OVERLAP = 500 := rfl
    have hMin : MIN_CHUNK_SIZE = 250 := rfl
    simp only [List.length_cons, List.length_nil, hO, hMin]
    norm_num
    exact ih acc

/-- **C1** (code_bug): `semanticChunking` is NOT total.  On the headerless
document consisting of one 4001-character paragraph, the outer `while` loop of
`addContentToChunks` never advances: the inner accumulation cannot absorb the
over-long paragraph, so `currentParagraphIndex` stays at 0 forever (the
backtrack is 0, not strictly below the consumed count, which is 0).  In the
fuel model the loop returns `none` for EVERY fuel amount, which is exactly
non-termination of the unbounded JS loop. -/
theorem processChildrenF_nil (fuel : Nat) (path : JStr) (acc : List Chunk) :
    processChildrenF fuel [] path acc = some acc := by
  rw [processChildrenF.eq_def]

theorem semanticChunking_nontermination :
    ∀ fuel : Nat, semanticChunkingFuel longPara fuel = none := by
  intro fuel
  rw [semanticChunkingFuel,
    if_neg (by rw [jsTrim_longPara]; simp [longPara_ne_nil]),
    parse_longPara, processStructureF]
  simp only [SectionNode.children, SectionNode.content]
  rw [processChildrenF_nil]
  dsimp only
  rw [if_pos (by rw [jsTrim_longPara]; simp [longPara_ne_nil]),
    addContentToChunksFuel,
    if_neg (by rw [longPara, List.length_replicate]; decide),
    splitIntoParagraphs_longPara]
  exact chunkLoop_stuck longPara
    (by rw [longPara, List.length_replicate]; decide) _ fuel []

theorem consume_len_le :
    ∀ (ps : List JStr) (cur : JStr), cur.length ≤ MAX_CHUNK_SIZE + 1 →
      (consume ps cur).2.length ≤ MAX_CHUNK_SIZE + 1 := by
  intro ps
  induction ps with
  | nil => intro cur h; exact h
  | cons p rest ih =>
    intro cur h
    rw [consume]
    by_cases hc : cur.length + p.length + 1 ≤ MAX_CHUNK_SIZE
    · rw [if_pos hc]
      apply ih
      by_cases hcur : cur = []
      · rw [if_pos hcur]
        rw [hcur] at hc
        simp only [List.length_nil, Nat.zero_add] at hc
        omega
      · rw [if_neg hcur]
        simp only [List.length_append]
        have h2 : (jstr "\n\n").length = 2 := rfl
        omega
    · rw [if_neg hc]
      exact h

theorem chunkLoop_bounds :
    ∀ (paras : List JStr) (sect : JStr) (fuel idx : Nat)
      (acc out : List Chunk),
      chunkLoop paras sect fuel idx acc = some out →
      (∀ c ∈ acc,
        MIN_CHUNK_SIZE ≤ c.text.length ∧ c.text.length ≤ MAX_CHUNK_SIZE + 1) →
      ∀ c ∈ out,
        MIN_CHUNK_SIZE ≤ c.text.length ∧ c.text.length ≤ MAX_CHUNK_SIZE + 1 := by
  intro paras sect fuel
  induction fuel with
  | zero =>
    intro idx acc out h _
    exact Option.noConfusion h
  | succ n ih =>
    intro idx acc out h hacc
    rw [chunkLoop] at h
    by_cases hidx : idx < paras.length
    · rw [if_pos hidx] at h
      dsimp only at h
      generalize hq : consume (paras.drop idx) [] = q at h
      have hq2 : q.2.length ≤ MAX_CHUNK_SIZE + 1 := by
        rw [← hq]
        exact consume_len_le _ [] (by simp)
      have hP : ∀ c ∈ (if MIN_CHUNK_SIZE ≤ q.2.length then
            acc ++ [Chunk.mk q.2 sect] else acc),
          MIN_CHUNK_SIZE ≤ c.text.length ∧
            c.text.length ≤ MAX_CHUNK_SIZE + 1 := by
        by_cases hg : MIN_CHUNK_SIZE ≤ q.2.length
        · rw [if_pos hg]
          intro c hc
          rcases List.mem_append.mp hc with hc1 | hc2
          · exact hacc c hc1
          · rw [List.mem_singleton.mp hc2]
            exact ⟨hg, hq2⟩
        · rw [if_neg hg]
          exact hacc
      by_cases hend : paras.length ≤ paras.length - q.1.length
      · rw [if_pos hend] at h
        intro c hc
        rw [← Option.some.inj h] at hc
        exact hP c hc
      · rw [if_neg hend] at h
        exact ih _ _ _ h hP
    · rw [if_neg hidx] at h
      intro c hc
      rw [← Option.some.inj h] at hc
      exact hacc c hc

/-- **C2** (corrected): chunk size bounds.  On the splitting path
(content longer than `MAX_CHUNK_SIZE`) every produced chunk — final remainder
included, since the final buffer is pushed only when it reaches
`MIN_CHUNK_SIZE` — has length between `MIN_CHUNK_SIZE` and
`MAX_CHUNK_SIZE + 1`; the claimed upper bound `MAX_CHUNK_SIZE` itself is off by
one because the loop budgets 1 character for the separator but inserts the
2-character `"\n\n"`.  Content that already fits in `MAX_CHUNK_SIZE` is
emitted verbatim as one chunk (which may be shorter than `MIN_CHUNK_SIZE`). -/
theorem chunk_size_bounds_amended :
    ∀ (content sect : JStr) (fuel : Nat) (out : List Chunk),
      addContentToChunksFuel content sect [] fuel = some out →
      ∀ c ∈ out,
        (MAX_CHUNK_SIZE < content.length →
          MIN_CHUNK_SIZE ≤ c.text.length ∧
            c.text.length ≤ MAX_CHUNK_SIZE + 1) ∧
        (content.length ≤ MAX_CHUNK_SIZE → c.text = content) := by
  intro content sect fuel out h c hc
  by_cases hlen : content.length ≤ MAX_CHUNK_SIZE
  · rw [addContentToChunksFuel, if_pos hlen] at h
    have hout : c = Chunk.mk content sect := by
      rw [← Option.some.inj h, List.nil_append] at hc
      exact List.mem_singleton.mp hc
    constructor
    · intro hgt
      omega
    · intro _
      rw [hout]
  · rw [addContentToChunksFuel, if_neg hlen] at h
    constructor
    · intro _
      exact chunkLoop_bounds _ _ _ _ _ _ h (by simp) c hc
    · intro hle
      exact absurd hle hlen

/-- Witness for `chunk_size_bounds_amended` at the two-character content
`"hi"`, which takes the verbatim path. -/
theorem chunk_size_bounds_amended_wit :
    (MAX_CHUNK_SIZE < (jstr "hi").length →
      MIN_CHUNK_SIZE ≤ (Chunk.mk (jstr "hi") []).text.length ∧
        (Chunk.mk (jstr "hi") []).text.length ≤ MAX_CHUNK_SIZE + 1) ∧
    ((jstr "hi").length ≤ MAX_CHUNK_SIZE →
      (Chunk.mk (jstr "hi") []).text = jstr "hi") :=
  chunk_size_bounds_amended (jstr "hi") [] 1 [Chunk.mk (jstr "hi") []] rfl
    (Chunk.mk (jstr "hi") []) (List.mem_singleton.mpr rfl)

theorem splitBlocksAux_nonws_end (x cur : JStr)
    (h : ∀ c ∈ x, isJsWs c = false) :
    splitBlocksAux x cur [] = [cur ++ x] := by
  have h2 := splitBlocksAux_nonws x h [] cur
  rw [List.append_nil] at h2
  rw [h2, splitBlocksAux_end]

theorem splitBlocksAux_sep_run (x y : JStr) (hx : ∀ c ∈ x, isJsWs c = false)
    (c : Char) (hc : isJsWs c = false) (cur : JStr) :
    splitBlocksAux (x ++ '\n' :: '\n' :: c :: y) cur [] =
      (cur ++ x) :: splitBlocksAux y [c] [] := by
  rw [splitBlocksAux_nonws x hx, splitBlocksAux_sep c hc]

theorem splitOnChar_cons_sep (sep : Char) (y : JStr) :
    splitOnChar sep (sep :: y) = [] :: splitOnChar sep y := by
  have h := splitOnChar_append sep [] y (by simp)
  rwa [List.nil_append] at h

theorem nl_not_mem_replicate (n : Nat) : '\n' ∉ List.replicate n 'a' := by
  intro h
  exact absurd (List.eq_of_mem_replicate h) (by decide)

theorem replicate_a_ne_nil (n : Nat) :
    (List.replicate (n + 1) 'a' : JStr) ≠ [] := by
  rw [List.replicate_succ]
  exact List.cons_ne_nil _ _

theorem doc4303_shape :
    doc4303 = List.replicate 1999 'a' ++ '\n' :: '\n' :: 'a' ::
      (List.replicate 1999 'a' ++ '\n' :: '\n' :: 'a' ::
        List.replicate 299 'a') := by
  rw [doc4303, show jstr "\n\n" = ['\n', '\n'] from rfl]
  rw [show (2000 : Nat) = 1999 + 1 from rfl, List.replicate_succ 'a' 1999]
  rw [show (300 : Nat) = 299 + 1 from rfl, List.replicate_succ 'a' 299]
  simp only [List.append_assoc, List.cons_append, List.nil_append]

theorem doc4303_blocks :
    splitBlocks doc4303 =
      [List.replicate 1999 'a', List.replicate 2000 'a',
        List.replicate 300 'a'] := by
  rw [splitBlocks, doc4303_shape]
  rw [splitBlocksAux_sep_run _ _ (replicate_a_nonws 1999) 'a' rfl []]
  rw [splitBlocksAux_sep_run _ _ (replicate_a_nonws 1999) 'a' rfl ['a']]
  rw [splitBlocksAux_nonws_end _ ['a'] (replicate_a_nonws 299)]
  simp only [List.nil_append, List.singleton_append]
  rw [show ('a' :: List.replicate 1999 'a' : JStr) = List.replicate 2000 'a'
      from by
        rw [show (2000 : Nat) = 1999 + 1 from rfl, List.replicate_succ 'a' 1999],
    show ('a' :: List.replicate 299 'a' : JStr) = List.replicate 300 'a'
      from by
        rw [show (300 : Nat) = 299 + 1 from rfl, List.replicate_succ 'a' 299]]

theorem jsTrim_rep1999 :
    jsTrim (List.replicate 1999 'a') = List.replicate 1999 'a' := by
  rw [show (1999 : Nat) = 1998 + 1 from rfl]
  exact jsTrim_replicate_a 1998

theorem jsTrim_rep2000 :
    jsTrim (List.replicate 2000 'a') = List.replicate 2000 'a' := by
  rw [show (2000 : Nat) = 1999 + 1 from rfl]
  exact jsTrim_replicate_a 1999

theorem jsTrim_rep300 :
    jsTrim (List.replicate 300 'a') = List.replicate 300 'a' := by
  rw [show (300 : Nat) = 299 + 1 from rfl]
  exact jsTrim_replicate_a 299

theorem splitIntoParagraphs_doc4303 :
    splitIntoParagraphs doc4303 =
      [List.replicate 1999 'a', List.replicate 2000 'a',
        List.replicate 300 'a'] := by
  rw [splitIntoParagraphs, doc4303_blocks]
  rw [List.map_cons, List.map_cons, List.map_cons, List.map_nil,
    jsTrim_rep1999, jsTrim_rep2000, jsTrim_rep300]
  have ne1 : (List.replicate 1999 'a' : JStr) ≠ [] := by
    rw [show (1999 : Nat) = 1998 + 1 from rfl]
    exact replicate_a_ne_nil 1998
  have ne2 : (List.replicate 2000 'a' : JStr) ≠ [] := by
    rw [show (2000 : Nat) = 1999 + 1 from rfl]
    exact replicate_a_ne_nil 1999
  have ne3 : (List.replicate 300 'a' : JStr) ≠ [] := by
    rw [show (300 : Nat) = 299 + 1 from rfl]
    exact replicate_a_ne_nil 299
  simp [ne1, ne2, ne3]

theorem replicate_append_head (n : Nat) (z : JStr) :
    ∃ t, (List.replicate (n + 1) 'a' ++ z : JStr) = 'a' :: t :=
  ⟨List.replicate n 'a' ++ z, by rw [List.replicate_succ, List.cons_append]⟩

theorem doc4303_head : ∃ t, doc4303 = 'a' :: t := by
  rw [doc4303_shape, show (1999 : Nat) = 1998 + 1 from rfl]
  exact replicate_append_head 1998 _

theorem doc4303_rev_head : ∃ t, doc4303.reverse = 'a' :: t := by
  rw [doc4303, List.reverse_append, List.reverse_replicate,
    show (300 : Nat) = 299 + 1 from rfl]
  exact replicate_append_head 299 _

theorem doc4303_ne_nil : doc4303 ≠ [] := by
  obtain ⟨t, ht⟩ := doc4303_head
  rw [ht]
  exact List.cons_ne_nil _ _

theorem jsTrim_doc4303 : jsTrim doc4303 = doc4303 :=
  jsTrim_eq_self doc4303 doc4303_head doc4303_rev_head

theorem doc4303_lines :
    splitOnChar '\n' doc4303 =
      [List.replicate 1999 'a', [], List.replicate 2000 'a', [],
        List.replicate 300 'a'] := by
  rw [doc4303_shape]
  rw [splitOnChar_append '\n' _ _ (nl_not_mem_replicate 1999)]
  rw [splitOnChar_cons_sep]
  rw [show ('a' :: (List.replicate 1999 'a' ++ '\n' :: '\n' :: 'a' ::
        List.replicate 299 'a') : JStr) =
      List.replicate 2000 'a' ++ '\n' :: '\n' :: 'a' :: List.replicate 299 'a'
    from by
      rw [show (2000 : Nat) = 1999 + 1 from rfl, List.replicate_succ 'a' 1999,
        List.cons_append]]
  rw [splitOnChar_append '\n' _ _ (nl_not_mem_replicate 2000)]
  rw [splitOnChar_cons_sep]
  rw [show ('a' :: List.replicate 299 'a' : JStr) = List.replicate 300 'a'
    from by
      rw [show (300 : Nat) = 299 + 1 from rfl, List.replicate_succ 'a' 299]]
  rw [splitOnChar_not_mem '\n' _ (nl_not_mem_replicate 300)]

theorem parse_doc4303 :
    parseDocumentStructure doc4303 =
      SectionNode.mk (jstr "Document Root") 0 doc4303 [] := by
  rw [parse_no_header doc4303 ?hl,
    jsTrim_append_nl doc4303 doc4303_head doc4303_rev_head]
  case hl =>
    rw [doc4303_lines]
    intro l hl
    simp only [List.mem_cons, List.not_mem_nil, or_false] at hl
    rcases hl with rfl | rfl | rfl | rfl | rfl
    · rw [show (1999 : Nat) = 1998 + 1 from rfl]
      exact headerMatch_replicate_a 1998
    · exact headerMatch_nil
    · rw [show (2000 : Nat) = 1999 + 1 from rfl]
      exact headerMatch_replicate_a 1999
    · exact headerMatch_nil
    · rw [show (300 : Nat) = 299 + 1 from rfl]
      exact headerMatch_replicate_a 299

theorem consume_doc4303_1 :
    consume [List.replicate 1999 'a', List.replicate 2000 'a',
        List.replicate 300 'a'] [] =
      ([List.replicate 300 'a'],
        List.replicate 1999 'a' ++ jstr "\n\n" ++ List.replicate 2000 'a') := by
  have hnn : (jstr "\n\n").length = 2 := rfl
  rw [consume, if_pos (by
      simp only [List.length_nil, List.length_replicate, MAX_CHUNK_SIZE]
      norm_num), if_pos rfl]
  rw [consume, if_pos (by
      simp only [List.length_replicate, MAX_CHUNK_SIZE]
      norm_num),
    if_neg (by
      rw [show (1999 : Nat) = 1998 + 1 from rfl]
      exact replicate_a_ne_nil 1998)]
  rw [consume, if_neg (by
      simp only [List.length_append, List.length_replicate, hnn,
        MAX_CHUNK_SIZE]
      norm_num)]

theorem consume_doc4303_2 :
    consume [List.replicate 2000 'a', List.replicate 300 'a'] [] =
      ([], List.replicate 2000 'a' ++ jstr "\n\n" ++ List.replicate 300 'a') := by
  rw [consume, if_pos (by
      simp only [List.length_nil, List.length_replicate, MAX_CHUNK_SIZE]
      norm_num), if_pos rfl]
  rw [consume, if_pos (by
      simp only [List.length_replicate, MAX_CHUNK_SIZE]
      norm_num),
    if_neg (by
      rw [show (2000 : Nat) = 1999 + 1 from rfl]
      exact replicate_a_ne_nil 1999)]
  rw [consume]

theorem chunkLoop_doc4303 (sect : JStr) :
    chunkLoop [List.replicate 1999 'a', List.replicate 2000 'a',
        List.replicate 300 'a'] sect 8 0 [] =
      some [Chunk.mk (List.replicate 1999 'a' ++ jstr "\n\n" ++
          List.replicate 2000 'a') sect,
        Chunk.mk (List.replicate 2000 'a' ++ jstr "\n\n" ++
          List.replicate 300 'a') sect] := by
  have hnn : (jstr "\n\n").length = 2 := rfl
  have hMin : MIN_CHUNK_SIZE = 250 := rfl
  have hO : CHUNK_OVERLAP = 500 := rfl
  rw [show (8 : Nat) = 7 + 1 from rfl, chunkLoop, if_pos (by simp),
    List.drop_zero, consume_doc4303_1]
  dsimp only
  simp only [List.length_cons, List.length_nil, List.length_append,
    List.length_replicate, List.nil_append, hnn, hMin, hO]
  norm_num
  rw [show (7 : Nat) = 6 + 1 from rfl, chunkLoop, if_pos (by simp),
    show List.drop 1 [List.replicate 1999 'a', List.replicate 2000 'a',
      List.replicate 300 'a'] =
      [List.replicate 2000 'a', List.replicate 300 'a'] from rfl,
    consume_doc4303_2]
  dsimp only
  simp only [List.length_cons, List.length_nil, List.length_append,
    List.length_replicate, List.nil_append, List.singleton_append, hnn, hMin,
    hO]
  norm_num

/-- **C2 counterexample**: on the headerless three-paragraph document of total
length 4303 (paragraph lengths 1999, 2000 and 300) the chunker terminates and
returns chunks of lengths 4001 and 2302.  The FIRST chunk — not a final
remainder — exceeds `MAX_CHUNK_SIZE` (4000): the loop's size check budgets one
character for the separator (`+ 1`) but then joins with the two-character
`"\n\n"`. -/
theorem chunk_size_bound_cex :
    (semanticChunkingFuel doc4303 8).map
        (fun cs => cs.map (fun c => c.text.length)) =
      some [4001, 2302] ∧ MAX_CHUNK_SIZE < 4001 := by
  have hnn : (jstr "\n\n").length = 2 := rfl
  constructor
  · rw [semanticChunkingFuel,
      if_neg (by rw [jsTrim_doc4303]; simp [doc4303_ne_nil]),
      parse_doc4303, processStructureF]
    simp only [SectionNode.children, SectionNode.content]
    rw [processChildrenF_nil]
    dsimp only
    rw [if_pos (by rw [jsTrim_doc4303]; simp [doc4303_ne_nil]),
      addContentToChunksFuel, if_neg ?hlen, splitIntoParagraphs_doc4303,
      chunkLoop_doc4303]
    case hlen =>
      rw [doc4303, show jstr "\n\n" = ['\n', '\n'] from rfl]
      simp only [List.length_append, List.length_replicate, List.length_cons,
        List.length_nil, MAX_CHUNK_SIZE]
      norm_num
    simp only [Option.map_some', List.map_cons, List.map_nil,
      List.length_append, List.length_replicate, hnn]
  · decide
